import Mathlib

/-!
# Verification of the financial-forensics detection engine

This development gives a shallow embedding, in Lean 4, of the transaction
analysis pipeline implemented in `backend/src/detection-engine.ts` and its
companion modules (`temporal-cycle-validation`, `centrality-analysis`,
`multi-stage-flow-analysis`), and proves or refutes the testable properties
stated in the specification.

Modelling conventions:

* JavaScript numbers are modelled as `Int` (scores, which only ever hold
  integral values) and the exact fraction type `Q` below (amounts,
  averages, centralities).  Floating point rounding of non-representable
  literals such as `0.3`, `0.6` and `0.66` is abstracted: those literals
  are taken as exact rationals.
* Timestamps are modelled as epoch milliseconds (`Nat`), the value of
  `new Date(ts).getTime()` in the source.
* JavaScript `Map` and `Set` preserve insertion order; they are modelled as
  association lists / duplicate-free lists with insertion-order semantics.
* `Array.prototype.sort` is a stable sort; it is modelled by a stable
  insertion sort.
* Ring identifier strings `RING_###` / `RING_COMM_###` are modelled by the
  two-constructor type `RingId` carrying the counter value; the decimal
  zero-padded rendering is abstracted (it is injective in the counter).
* Explanation strings are modelled as lists of sentence tags; numeric
  interpolations (`toFixed`, `toLocaleString`) are abstracted since no
  claim depends on the exact rendering.
* `performance.now()` readings are an input of the model: `analyzeTransactions`
  receives the elapsed wall-clock milliseconds as an explicit argument.
* `Math.log2` (used only for the community ring risk score, a value no claim
  constrains) is modelled by the integer base-2 logarithm `log2n`; every
  other arithmetic operation is modelled exactly.
-/

/-- Exact fractions used to model JavaScript numbers.  `Rat` is avoided
because its normalising arithmetic does not reduce inside the kernel; `Q`
keeps possibly non-normalised numerator/denominator pairs so every
operation is plain integer arithmetic.  The denominator is kept
non-negative by construction; a denominator of `0` only arises from a
division by zero, which the pipeline never performs on meaningful data
(JS would produce `NaN`/`Infinity` there).  Numeric comparisons are
cross-multiplications; record equality (`DecidableEq`) is structural and
is only ever applied to values produced by the identical computation. -/
structure Q where
  num : Int
  den : Nat
deriving Repr, DecidableEq

/-- Build a fraction literal. -/
def Q.mkRaw (n : Int) (d : Nat) : Q := ⟨n, d⟩

def Q.ofInt (n : Int) : Q := ⟨n, 1⟩

def Q.ofNat (n : Nat) : Q := ⟨(n : Int), 1⟩

instance (n : Nat) : OfNat Q n := ⟨⟨(n : Int), 1⟩⟩

def Q.add (a b : Q) : Q := ⟨a.num * b.den + b.num * a.den, a.den * b.den⟩

def Q.sub (a b : Q) : Q := ⟨a.num * b.den - b.num * a.den, a.den * b.den⟩

def Q.mul (a b : Q) : Q := ⟨a.num * b.num, a.den * b.den⟩

/-- Division; the divisor's sign is moved into the numerator so that the
denominator stays non-negative. -/
def Q.div (a b : Q) : Q :=
  if b.num < 0 then ⟨-(a.num * b.den), a.den * b.num.natAbs⟩
  else ⟨a.num * b.den, a.den * b.num.natAbs⟩

def Q.neg (a : Q) : Q := ⟨-a.num, a.den⟩

def Q.abs (a : Q) : Q := ⟨(a.num.natAbs : Int), a.den⟩

instance : Add Q := ⟨Q.add⟩
instance : Sub Q := ⟨Q.sub⟩
instance : Mul Q := ⟨Q.mul⟩
instance : Div Q := ⟨Q.div⟩
instance : Neg Q := ⟨Q.neg⟩

/-- Cross-multiplied numeric order (denominators are non-negative). -/
def Q.le (a b : Q) : Prop := a.num * b.den ≤ b.num * a.den

def Q.lt (a b : Q) : Prop := a.num * b.den < b.num * a.den

instance : LE Q := ⟨Q.le⟩
instance : LT Q := ⟨Q.lt⟩

instance (a b : Q) : Decidable (a ≤ b) := Int.decLe _ _

instance (a b : Q) : Decidable (a < b) := Int.decLt _ _

/-- JS `Math.max` on two numbers. -/
def Q.max (a b : Q) : Q := if a < b then b else a

/-- Floor of a fraction (`Int.fdiv` rounds towards negative infinity). -/
def Q.floor (q : Q) : Int := Int.fdiv q.num q.den

/-- Ceiling of a fraction. -/
def Q.ceil (q : Q) : Int := -(Int.fdiv (-q.num) q.den)

/-- Numeric value of a `Q` as a Mathlib rational, used on the proof side. -/
def Q.toRat (q : Q) : Rat := (q.num : Rat) / (q.den : Rat)

/-- Kernel-computable lexicographic order on character lists. -/
def charListLeB : List Char → List Char → Bool
  | [], _ => true
  | _ :: _, [] => false
  | a :: as, b :: bs =>
    if a.toNat < b.toNat then true
    else if b.toNat < a.toNat then false
    else charListLeB as bs

/-- Lexicographic string order by code point (JS default array sort
compares UTF-16 code units; the two agree on all inputs used here). -/
def strLeB (a b : String) : Bool := charListLeB a.data b.data

/-- Structural base-2 logarithm (`Math.log2` is applied only to
`member_count + 1`, where its exact value matters to no claim). -/
def log2fuel : Nat → Nat → Nat
  | 0, _ => 0
  | fuel + 1, n => if n ≤ 1 then 0 else 1 + log2fuel fuel (n / 2)

def log2n (n : Nat) : Nat := log2fuel n n

/-- Input transaction record (`RawTransaction` in `types.ts`).  `timestamp`
is the epoch-millisecond value of `new Date(tx.timestamp).getTime()`. -/
structure RawTransaction where
  transaction_id : String
  sender_id : String
  receiver_id : String
  amount : Q
  timestamp : Nat
deriving Repr, DecidableEq

/-- Ring identifiers: `RingId.ring n` models the string `RING_nnn` and
`RingId.comm n` models `RING_COMM_nnn`. -/
inductive RingId where
  | ring (n : Nat)
  | comm (n : Nat)
deriving Repr, DecidableEq

/-- Per-pattern score contributions (`PatternScores` in `types.ts`). -/
structure PatternScores where
  fan_in : Int
  fan_out : Int
  cycle : Int
  shell : Int
  velocity : Int
deriving Repr, DecidableEq

/-- Mutable per-account record (`AccountNode` in `types.ts`).  Fields that
the TypeScript code leaves `undefined` until an enrichment pass fills them
are modelled with `Option`. -/
structure AccountNode where
  account_id : String
  total_transactions : Nat
  in_degree : Nat
  out_degree : Nat
  total_amount_sent : Q
  total_amount_received : Q
  suspicion_score : Int
  pattern_scores : PatternScores
  detected_patterns : List String
  ring_ids : List RingId
  triggered_algorithms : List String
  explanation : List String
  is_suspicious : Bool
  centrality_score : Option Q := none
  ring_role : Option String := none
  laundering_stage : Option String := none
  flow_pattern : List String := []
  fan_in_promotion : Option String := none
deriving Repr, DecidableEq

/-- Fraud ring record (`FraudRing` in `types.ts`). -/
structure FraudRing where
  ring_id : RingId
  pattern_type : String
  members : List String
  member_count : Nat
  risk_score : Int
  total_value : Q
  explanation : List String
deriving Repr, DecidableEq

/-- Result summary block. -/
structure Summary where
  total_accounts_analyzed : Nat
  total_transactions : Nat
  suspicious_accounts_flagged : Nat
  fraud_rings_detected : Nat
  processing_time_seconds : Q
deriving Repr, DecidableEq

/-- Per-account projection exposed in the hackathon output:
`ring_id` is the first entry of `ring_ids` (or `none` for the empty
string fallback). -/
structure SuspiciousAccount where
  account_id : String
  suspicion_score : Int
  detected_patterns : List String
  ring_id : Option RingId
  triggered_algorithms : List String
  explanation : List String
deriving Repr, DecidableEq

/-- Value returned by `analyzeTransactions` (the Cytoscape projection
`graphData`, a pure function of the same data, is omitted). -/
structure AnalysisResult where
  accounts : List AccountNode
  transactions : List RawTransaction
  fraudRings : List FraudRing
  summary : Summary
  suspicious_accounts : List SuspiciousAccount
deriving Repr, DecidableEq

/-- Detection mode flag (`DetectionMode` in `types.ts`). -/
inductive DetectionMode where
  | all
  | cycles
  | fanInOnly
  | fanOutOnly
  | shell
deriving Repr, DecidableEq

-- ─── Insertion-ordered maps and sets ────────────────────────────────────────

/-- Look up a key in an insertion-ordered association list (JS `Map.get`). -/
def alGet [DecidableEq κ] (l : List (κ × α)) (k : κ) : Option α :=
  (l.find? (fun p => p.1 = k)).map (fun p => p.2)

/-- JS `Map.has`. -/
def alHas [DecidableEq κ] (l : List (κ × α)) (k : κ) : Bool :=
  l.any (fun p => p.1 = k)

/-- Add the key with a default value if absent, appending at the end
(JS `if (!m.has(k)) m.set(k, d)`). -/
def alEnsure [DecidableEq κ] (l : List (κ × α)) (k : κ) (d : α) : List (κ × α) :=
  if alHas l k then l else l ++ [(k, d)]

/-- Apply a function to the value stored at a key, in place
(models mutation of the object obtained from `m.get(k)`). -/
def alModify [DecidableEq κ] (l : List (κ × α)) (k : κ) (f : α → α) : List (κ × α) :=
  l.map (fun p => if p.1 = k then (p.1, f p.2) else p)

/-- JS `m.set(k, v)`: overwrite in place if present, else append. -/
def alSet [DecidableEq κ] (l : List (κ × α)) (k : κ) (v : α) : List (κ × α) :=
  if alHas l k then alModify l k (fun _ => v) else l ++ [(k, v)]

/-- Add an element to an insertion-ordered set (JS `Set.add`). -/
def sAdd [DecidableEq α] (l : List α) (x : α) : List α :=
  if l.any (fun y => y = x) then l else l ++ [x]

/-- Collect a list into an insertion-ordered set (first occurrence wins). -/
def sOfList [DecidableEq α] (xs : List α) : List α :=
  xs.foldl sAdd []

-- ─── Stable sort (JS `Array.prototype.sort` with a comparator) ──────────────

/-- Insert into a sorted list, keeping the new element after existing
elements it ties with when inserted by `foldr`; combined with `foldr` below
this yields a stable sort. -/
def insOrd (le : α → α → Bool) (x : α) : List α → List α
  | [] => [x]
  | y :: ys => if le x y then x :: y :: ys else y :: insOrd le x ys

/-- Stable insertion sort: `le a b = true` keeps `a` before `b`.  Models
JS stable `sort`. -/
def sortBy (le : α → α → Bool) (l : List α) : List α :=
  l.foldr (insOrd le) []

-- ─── Small numeric helpers ──────────────────────────────────────────────────

/-- JS `Math.round`: round half towards positive infinity. -/
def jsRound (q : Q) : Int := (q + Q.mkRaw 1 2).floor

/-- JS `Math.max(0, Math.min(100, x))` on integers. -/
def clamp100 (x : Int) : Int := min 100 (max 0 x)

/-- Sum of the five per-pattern scores. -/
def PatternScores.sum (p : PatternScores) : Int :=
  p.fan_in + p.fan_out + p.cycle + p.shell + p.velocity

-- ─── Adjacency list graph (`buildAdjacencyList`) ────────────────────────────

/-- Directed multigraph: account id → (neighbor id → transactions in input
order), with JS `Map` insertion-order semantics. -/
def AdjList : Type := List (String × List (String × List RawTransaction))

/-- Faithful model of `buildAdjacencyList`: both endpoints become keys, and
the transaction is appended to `graph[sender][receiver]`. -/
def buildAdjacencyList (transactions : List RawTransaction) : AdjList :=
  transactions.foldl
    (fun g tx =>
      let g := alEnsure g tx.sender_id []
      let g := alEnsure g tx.receiver_id []
      alModify g tx.sender_id (fun nbrs =>
        let nbrs := alEnsure nbrs tx.receiver_id []
        alModify nbrs tx.receiver_id (fun l => l ++ [tx])))
    []

/-- Node list in `Map` iteration order (`Array.from(graph.keys())`). -/
def adjNodes (g : AdjList) : List String := g.map (fun p => p.1)

/-- Fresh account record; mirrors the object literal in `analyzeTransactions`. -/
def freshAccount (nodeId : String) : AccountNode :=
  { account_id := nodeId
    total_transactions := 0
    in_degree := 0
    out_degree := 0
    total_amount_sent := 0
    total_amount_received := 0
    suspicion_score := 0
    pattern_scores := { fan_in := 0, fan_out := 0, cycle := 0, shell := 0, velocity := 0 }
    detected_patterns := []
    ring_ids := []
    triggered_algorithms := []
    explanation := []
    is_suspicious := false }

/-- Update every account whose id matches (ids are unique in the pipeline, so
this models in-place mutation of the record found in the account `Map`). -/
def updAcc (accId : String) (f : AccountNode → AccountNode)
    (accounts : List AccountNode) : List AccountNode :=
  accounts.map (fun a => if a.account_id = accId then f a else a)

/-- Per-transaction totals pass of `analyzeTransactions`. -/
def applyTxTotals (accounts : List AccountNode)
    (transactions : List RawTransaction) : List AccountNode :=
  transactions.foldl
    (fun acc tx =>
      let acc := updAcc tx.sender_id (fun a =>
        { a with total_transactions := a.total_transactions + 1
                 total_amount_sent := a.total_amount_sent + tx.amount }) acc
      updAcc tx.receiver_id (fun a =>
        { a with total_transactions := a.total_transactions + 1
                 total_amount_received := a.total_amount_received + tx.amount }) acc)
    accounts

/-- Degree pass: `out_degree` is the neighbor-map size, `in_degree` counts
incoming edge entries. -/
def applyDegrees (accounts : List AccountNode) (g : AdjList) : List AccountNode :=
  let accounts := g.foldl
    (fun acc p => updAcc p.1 (fun a => { a with out_degree := p.2.length }) acc)
    accounts
  g.foldl
    (fun acc p => p.2.foldl
      (fun acc q => updAcc q.1 (fun a => { a with in_degree := a.in_degree + 1 }) acc)
      acc)
    accounts

/-- Initial account map contents, in node insertion order. -/
def buildAccounts (transactions : List RawTransaction) (g : AdjList) :
    List AccountNode :=
  applyDegrees (applyTxTotals ((adjNodes g).map freshAccount) transactions) g

-- ─── 1. Cycle detection (`detectCycles`) ────────────────────────────────────

/-- State of the explicit DFS stack machine in `detectCycles`.  The stack
head is the top (JS `stack.pop()` takes the last pushed frame). -/
structure CycleSearchState where
  stack : List (String × List String)
  cycles : List (List String)
  foundKeys : List (List String)

/-- Sorted node-set signature used to deduplicate cycles
(`[...cycle].sort().join(',')`; the join is abstracted by keeping the
sorted list). -/
def cycleKey (cycle : List String) : List String :=
  sortBy strLeB cycle

/-- Neighbor scan of one popped frame: records closing cycles of length
3..5 and collects frames to push (in neighbor order; they are consed so the
last pushed ends up on top, as with JS `push`/`pop`). -/
def expandFrame (startNode : String) (path : List String)
    (neighbors : List String) (st : CycleSearchState) : CycleSearchState :=
  neighbors.foldl
    (fun st neighbor =>
      if neighbor = startNode ∧ 3 ≤ path.length then
        let key := cycleKey path
        if st.foundKeys.contains key then st
        else { st with cycles := st.cycles ++ [path], foundKeys := st.foundKeys ++ [key] }
      else if ¬ path.contains neighbor ∧ path.length < 5 then
        { st with stack := (neighbor, path ++ [neighbor]) :: st.stack }
      else st)
    st

/-- Fuel-driven DFS loop of `detectCycles` for one start node. -/
def cycleSearchLoop (g : AdjList) (startNode : String) :
    Nat → CycleSearchState → CycleSearchState
  | 0, st => st
  | fuel + 1, st =>
    match st.stack with
    | [] => st
    | (node, path) :: rest =>
      let st := { st with stack := rest }
      if 5 < path.length then cycleSearchLoop g startNode fuel st
      else
        match alGet g node with
        | none => cycleSearchLoop g startNode fuel st
        | some neighbors =>
          cycleSearchLoop g startNode fuel
            (expandFrame startNode path (neighbors.map (fun p => p.1)) st)

/-- Fuel budget comfortably larger than the number of bounded-depth DFS
frames any start node can generate. -/
def cycleFuel (g : AdjList) : Nat := (g.length + 2) ^ 6

/-- Model of `detectCycles`: the retained cycle orderings and the
`account_id → ring ids` map populated for cycle members. -/
def detectCycles (g : AdjList) (allNodes : List String) :
    List (List String) × List (String × List RingId) :=
  let final := allNodes.foldl
    (fun st startNode =>
      cycleSearchLoop g startNode (cycleFuel g)
        { st with stack := [(startNode, [startNode])] })
    { stack := [], cycles := [], foundKeys := [] }
  let ringMap := (final.cycles.enum.foldl
    (fun m p =>
      p.2.foldl
        (fun m node =>
          let cur := (alGet m node).getD []
          alSet m node (cur ++ [RingId.ring (p.1 + 1)]))
        m)
    ([] : List (String × List RingId)))
  (final.cycles, ringMap)

-- ─── 2/3. Fan-in and fan-out detection ──────────────────────────────────────

/-- The 72-hour window in milliseconds. -/
def window72h : Nat := 72 * 60 * 60 * 1000

/-- Sliding-window scan over a time-sorted transaction list.  `window` is
the current `[left..right-1]` slice; on each new transaction the left
pointer advances (`dropWhile`) while the span exceeds 72 h, then the
distinct values of `proj` over the window are counted.  Returns the sender
(resp. receiver) set and the window bounds at the first trigger. -/
def fanScan (proj : RawTransaction → String) :
    List RawTransaction → List RawTransaction →
    Option (List String × Nat × Nat)
  | _, [] => none
  | window, t :: rest =>
    let kept := window.dropWhile (fun x => decide (window72h < t.timestamp - x.timestamp))
    let win := kept ++ [t]
    let ids := sOfList (win.map proj)
    if 10 ≤ ids.length then
      some (ids, ((win.head?.map (fun x => x.timestamp)).getD t.timestamp, t.timestamp))
    else fanScan proj win rest

/-- Group transactions by a key, preserving input order (JS `Map` of
arrays). -/
def groupTxsBy (key : RawTransaction → String) (transactions : List RawTransaction) :
    List (String × List RawTransaction) :=
  transactions.foldl
    (fun m tx => alSet m (key tx) (((alGet m (key tx)).getD []) ++ [tx]))
    []

/-- Comparator for `txs.sort((a, b) => ta - tb)`. -/
def timeLe (a b : RawTransaction) : Bool := decide (a.timestamp ≤ b.timestamp)

/-- One group step of the fan detectors: record the scan result under the
group key when the sliding window triggered. -/
def fanStep (proj : RawTransaction → String)
    (m : List (String × (List String × Nat × Nat)))
    (p : String × List RawTransaction) :
    List (String × (List String × Nat × Nat)) :=
  match fanScan proj [] (sortBy timeLe p.2) with
  | some r => alSet m p.1 r
  | none => m

/-- Model of `detectFanIn`: receiver → (unique senders in the triggering
window, window start and end timestamps). -/
def detectFanIn (transactions : List RawTransaction) :
    List (String × (List String × Nat × Nat)) :=
  (groupTxsBy (fun tx => tx.receiver_id) transactions).foldl
    (fanStep (fun tx => tx.sender_id)) []

/-- Model of `detectFanOut`: sender → (unique receivers, window bounds). -/
def detectFanOut (transactions : List RawTransaction) :
    List (String × (List String × Nat × Nat)) :=
  (groupTxsBy (fun tx => tx.sender_id) transactions).foldl
    (fanStep (fun tx => tx.receiver_id)) []

-- ─── 4. Shell chain detection (`detectShellChains`) ─────────────────────────

/-- State of the BFS in `detectShellChains` for one start node.  The queue
head is the front (JS `queue.shift()`). -/
structure ShellSearchState where
  queue : List (String × List String)
  visited : List String
  chains : List (List String)
  shellNodes : List String

/-- Mark a neighbor visited (`visited.add(neighbor)`). -/
def shellVisit (st : ShellSearchState) (neighbor : String) : ShellSearchState :=
  { st with visited := st.visited ++ [neighbor] }

/-- Record the new path as a chain when it is long enough and all its
intermediates are low-activity. -/
def shellRecord (lowActivity : List String) (newPath : List String)
    (st : ShellSearchState) : ShellSearchState :=
  if 4 ≤ newPath.length then
    if ((newPath.drop 1).dropLast).all (fun n => lowActivity.contains n) ∧
        1 ≤ ((newPath.drop 1).dropLast).length then
      { st with chains := st.chains ++ [newPath]
                shellNodes := ((newPath.drop 1).dropLast).foldl sAdd st.shellNodes }
    else st
  else st

/-- Enqueue the neighbor for further exploration when it is low-activity
and the path is still short. -/
def shellEnqueue (lowActivity : List String) (neighbor : String)
    (newPath : List String) (st : ShellSearchState) : ShellSearchState :=
  if lowActivity.contains neighbor ∧ newPath.length < 6 then
    { st with queue := st.queue ++ [(neighbor, newPath)] }
  else st

/-- One neighbor of one dequeued node in the shell-chain BFS. -/
def shellStep (lowActivity : List String) (path : List String)
    (st : ShellSearchState) (neighbor : String) : ShellSearchState :=
  if st.visited.contains neighbor then st
  else
    shellEnqueue lowActivity neighbor (path ++ [neighbor])
      (shellRecord lowActivity (path ++ [neighbor]) (shellVisit st neighbor))

/-- Neighbor scan of one dequeued node in the shell-chain BFS. -/
def shellExpand (lowActivity : List String) (path : List String)
    (neighbors : List String) (st : ShellSearchState) : ShellSearchState :=
  neighbors.foldl (shellStep lowActivity path) st

/-- Fuel-driven BFS loop of `detectShellChains` for one start node. -/
def shellSearchLoop (g : AdjList) (lowActivity : List String) :
    Nat → ShellSearchState → ShellSearchState
  | 0, st => st
  | fuel + 1, st =>
    match st.queue with
    | [] => st
    | (node, path) :: rest =>
      let st := { st with queue := rest }
      if 6 < path.length then shellSearchLoop g lowActivity fuel st
      else
        match alGet g node with
        | none => shellSearchLoop g lowActivity fuel st
        | some neighbors =>
          shellSearchLoop g lowActivity fuel
            (shellExpand lowActivity path (neighbors.map (fun p => p.1)) st)

/-- Ids of the accounts with `total_transactions ≤ 3`, in account-map
order (the `lowActivityAccounts` set). -/
def lowActivityIds (accounts : List AccountNode) : List String :=
  (accounts.filter (fun a => a.total_transactions ≤ 3)).map
    (fun a => a.account_id)

/-- Model of `detectShellChains`: raw qualifying paths and the set of shell
intermediaries.  `lowActivity` is the set of accounts with
`total_transactions ≤ 3` in account-map order. -/
def detectShellChains (g : AdjList) (accounts : List AccountNode) :
    List (List String) × List String :=
  let lowActivity := lowActivityIds accounts
  let final := accounts.foldl
    (fun st a =>
      shellSearchLoop g lowActivity (g.length + 2)
        { st with queue := [(a.account_id, [a.account_id])]
                  visited := [a.account_id] })
    { queue := [], visited := [], chains := [], shellNodes := [] }
  (final.chains, final.shellNodes)

-- ─── 5. Suspicion scoring (`calculateSuspicionScores`) ──────────────────────

/-- Transactions touching an account as sender or receiver, in input order. -/
def accountTxsOf (accId : String) (transactions : List RawTransaction) :
    List RawTransaction :=
  transactions.filter (fun tx => tx.sender_id = accId ∨ tx.receiver_id = accId)

/-- Consecutive differences of a list (transaction inter-arrival times). -/
def diffs : List Nat → List Nat
  | a :: b :: rest => (b - a) :: diffs (b :: rest)
  | _ => []

/-- JS `Math.abs(i - avg) / avg < 0.3` with NaN semantics: when `avg = 0`
the division yields NaN and the comparison is false. -/
def nearAvg (avg : Q) (i : Nat) : Bool :=
  if avg.num = 0 then false
  else decide ((Q.ofNat i - avg).abs / avg < Q.mkRaw 3 10)

/-- Millisecond timestamps of an account's transactions. -/
def txTimes (txs : List RawTransaction) : List Nat :=
  txs.map (fun tx => tx.timestamp)

/-- Velocity trigger: `count / max(span_days, 1) > 15`. -/
def velocityTriggered (txs : List RawTransaction) : Bool :=
  if txs.isEmpty then false
  else
    let times := txTimes txs
    let tmax := times.foldl Nat.max (times.headD 0)
    let tmin := times.foldl Nat.min (times.headD 0)
    let timeSpan : Nat := tmax - tmin
    let days : Q := Q.max (Q.ofNat timeSpan / 86400000) 1
    decide ((15 : Q) < Q.ofNat txs.length / days)

/-- Dampening trigger: more than 10 transactions and more than 60 % of the
inter-arrival intervals within 30 % of the mean interval. -/
def dampeningTriggered (txs : List RawTransaction) : Bool :=
  if 10 < txs.length then
    let sortedTimes := sortBy (fun a b => decide (a ≤ b)) (txTimes txs)
    let intervals := diffs sortedTimes
    if intervals.length = 0 then false
    else
      let avg : Q := (intervals.foldl (fun s i => s + Q.ofNat i) 0) /
        Q.ofNat intervals.length
      let consistent := intervals.filter (nearAvg avg)
      decide (Q.mkRaw 3 5 < Q.ofNat consistent.length / Q.ofNat intervals.length)
  else false

/-- Score one account; mirrors the body of the `calculateSuspicionScores`
loop (weights 40/30/30/35/15, false-positive dampening, cap at 100). -/
def scoreAccount (ringMap : List (String × List RingId))
    (fanInMap fanOutMap : List (String × (List String × Nat × Nat)))
    (shellNodes : List String) (transactions : List RawTransaction)
    (a : AccountNode) : AccountNode :=
  let accId := a.account_id
  let inCycle := alHas ringMap accId
  let inFanIn := alHas fanInMap accId
  let inFanOut := alHas fanOutMap accId
  let inShell := shellNodes.contains accId
  let scores : PatternScores :=
    { fan_in := if inFanIn then 30 else 0
      fan_out := if inFanOut then 30 else 0
      cycle := if inCycle then 40 else 0
      shell := if inShell then 35 else 0
      velocity := 0 }
  let patterns : List String :=
    (if inCycle then ["cycle"] else []) ++
    (if inFanIn then ["fan_in"] else []) ++
    (if inFanOut then ["fan_out"] else []) ++
    (if inShell then ["shell_chain"] else [])
  let algorithms : List String :=
    (if inCycle then ["DFS Cycle Detection (Johnson variant)"] else []) ++
    (if inFanIn then ["72h Sliding Window Fan-In"] else []) ++
    (if inFanOut then ["72h Sliding Window Fan-Out"] else []) ++
    (if inShell then ["BFS Shell Chain Detection"] else [])
  let explanations : List String :=
    (if inCycle then ["Part of fraud ring(s)"] else []) ++
    (if inFanIn then ["Received from unique senders within 72h"] else []) ++
    (if inFanOut then ["Sent to unique receivers within 72h"] else []) ++
    (if inShell then ["Intermediate node in shell chain"] else [])
  let ringIds := if inCycle then (alGet ringMap accId).getD [] else a.ring_ids
  let accountTxs := accountTxsOf accId transactions
  let hasVelocity := velocityTriggered accountTxs
  let scores := if hasVelocity then { scores with velocity := 15 } else scores
  let patterns := patterns ++ (if hasVelocity then ["high_velocity"] else [])
  let algorithms := algorithms ++
    (if hasVelocity then ["Transaction Velocity Analysis"] else [])
  let explanations := explanations ++ (if hasVelocity then ["High velocity"] else [])
  let score0 : Int := scores.sum
  let totalDegree := a.in_degree + a.out_degree
  let damp := 100 < totalDegree ∧ ¬ inCycle ∧ dampeningTriggered accountTxs
  let score1 : Int := if damp then max 0 (score0 - 30) else score0
  let algorithms := algorithms ++ (if damp then ["False Positive Dampening"] else [])
  let explanations := explanations ++
    (if damp then ["Score reduced by 30: likely merchant"] else [])
  let score2 : Int := min score1 100
  { a with pattern_scores := scores
           suspicion_score := score2
           detected_patterns := patterns
           triggered_algorithms := algorithms
           explanation := explanations
           ring_ids := ringIds
           is_suspicious := decide (0 < score2) }

/-- Model of `calculateSuspicionScores`. -/
def calculateSuspicionScores (accounts : List AccountNode)
    (ringMap : List (String × List RingId))
    (fanInMap fanOutMap : List (String × (List String × Nat × Nat)))
    (shellNodes : List String) (transactions : List RawTransaction) :
    List AccountNode :=
  accounts.map (scoreAccount ringMap fanInMap fanOutMap shellNodes transactions)

-- ─── Ring construction (`buildFraudRings`) ──────────────────────────────────

/-- Find an account record by id (`accountMap.get(id)`). -/
def accGet (accounts : List AccountNode) (accId : String) : Option AccountNode :=
  accounts.find? (fun a => a.account_id = accId)

/-- Sum of the members' current suspicion scores
(`accountMap.get(id)?.suspicion_score || 0`). -/
def memberScoreSum (accounts : List AccountNode) (members : List String) : Q :=
  members.foldl
    (fun s m => s + (((accGet accounts m).map
      (fun a => Q.ofInt a.suspicion_score)).getD 0))
    0

/-- Mean member score rounded (`Math.round(avgScore)`). -/
def ringRisk (accounts : List AccountNode) (members : List String) : Int :=
  jsRound (memberScoreSum accounts members / Q.ofNat members.length)

/-- All transactions on hop `i` of a cycle
(`tx.sender_id === cycle[i] && tx.receiver_id === cycle[(i+1) % len]`). -/
def hopMatching (cycle : List String) (i : Nat)
    (transactions : List RawTransaction) : List RawTransaction :=
  transactions.filter (fun tx =>
    tx.sender_id = cycle.getD i "" ∧
    tx.receiver_id = cycle.getD ((i + 1) % cycle.length) "")

/-- The `txsInCycle` list: matching transactions of every hop, concatenated
in hop order. -/
def cycleTxs (cycle : List String) (transactions : List RawTransaction) :
    List RawTransaction :=
  (List.range cycle.length).foldl
    (fun acc i => acc ++ hopMatching cycle i transactions) []

/-- Sum of transaction amounts. -/
def txAmountSum (txs : List RawTransaction) : Q :=
  txs.foldl (fun s tx => s + tx.amount) 0

/-- Cycle rings, numbered from 1 in cycle-enumeration order. -/
def cycleRingsOf (cycles : List (List String)) (accounts : List AccountNode)
    (transactions : List RawTransaction) : List FraudRing :=
  cycles.enum.map (fun p =>
    let cycle := p.2
    { ring_id := RingId.ring (p.1 + 1)
      pattern_type := "cycle"
      members := cycle
      member_count := cycle.length
      risk_score := ringRisk accounts cycle
      total_value := txAmountSum (cycleTxs cycle transactions)
      explanation := ["Cycle of accounts"] })

/-- Fan-in rings: `members = [receiver, ...senders]`. -/
def fanInRingsOf (offset : Nat)
    (fanInMap : List (String × (List String × Nat × Nat)))
    (accounts : List AccountNode) : List FraudRing :=
  fanInMap.enum.map (fun p =>
    let members := p.2.1 :: p.2.2.1
    { ring_id := RingId.ring (offset + p.1 + 1)
      pattern_type := "fan_in"
      members := members
      member_count := members.length
      risk_score := ringRisk accounts members
      total_value := 0
      explanation := ["Fan-in: unique senders within 72h"] })

/-- Fan-out rings: `members = [sender, ...receivers]`. -/
def fanOutRingsOf (offset : Nat)
    (fanOutMap : List (String × (List String × Nat × Nat)))
    (accounts : List AccountNode) : List FraudRing :=
  fanOutMap.enum.map (fun p =>
    let members := p.2.1 :: p.2.2.1
    { ring_id := RingId.ring (offset + p.1 + 1)
      pattern_type := "fan_out"
      members := members
      member_count := members.length
      risk_score := ringRisk accounts members
      total_value := 0
      explanation := ["Fan-out: unique receivers within 72h"] })

/-- Sorted duplicate-free node signature of a chain
(`[...new Set(chain)].sort().join(',')`, the join abstracted). -/
def chainSig (chain : List String) : List String :=
  sortBy strLeB (sOfList chain)

/-- Deduplicate raw chains by signature, keeping the first occurrence. -/
def dedupChains (chains : List (List String)) : List (List String) :=
  (chains.foldl
    (fun st c =>
      if st.2.contains (chainSig c) then st
      else (st.1 ++ [c], st.2 ++ [chainSig c]))
    (([], []) : List (List String) × List (List String))).1

/-- Undirected adjacency over all shell-chain nodes. -/
def shellAdjOf (uniqueChains : List (List String)) : List (String × List String) :=
  uniqueChains.foldl
    (fun adj c =>
      let adj := c.foldl (fun adj n => alEnsure adj n []) adj
      (List.range (c.length - 1)).foldl
        (fun adj i =>
          let x := c.getD i ""
          let y := c.getD (i + 1) ""
          let adj := alModify adj x (fun s => sAdd s y)
          alModify adj y (fun s => sAdd s x))
        adj)
    []

/-- BFS of one connected component: returns the updated global visited set
and the component contents in dequeue order. -/
def compLoop (adj : List (String × List String)) :
    Nat → List String → List String → List String → List String × List String
  | 0, _, visited, comp => (visited, comp)
  | _ + 1, [], visited, comp => (visited, comp)
  | fuel + 1, cur :: qrest, visited, comp =>
    let comp := comp ++ [cur]
    let nbrs := (alGet adj cur).getD []
    let next := nbrs.foldl
      (fun (st : List String × List String) nb =>
        if st.2.contains nb then st else (st.1 ++ [nb], st.2 ++ [nb]))
      (qrest, visited)
    compLoop adj fuel next.1 next.2 comp

/-- Connected components of an undirected adjacency list, in key order. -/
def componentsOf (adj : List (String × List String)) : List (List String) :=
  ((adj.map (fun p => p.1)).foldl
    (fun (st : List (List String) × List String) node =>
      if st.2.contains node then st
      else
        let r := compLoop adj (adj.length + 2) [node] (st.2 ++ [node]) []
        (st.1 ++ [r.2], r.1))
    ([], [])).1

/-- Chain chosen for a shell component: the first chain with the most
unique nodes among the chains meeting the component. -/
def bestChainFor (uniqueChains : List (List String)) (comp : List String) :
    Option (List String) :=
  let chainsInComp := uniqueChains.filter (fun c => c.any (fun n => comp.contains n))
  match chainsInComp with
  | [] => none
  | c0 :: rest =>
    some (rest.foldl
      (fun best c =>
        if (sOfList best).length < (sOfList c).length then c else best)
      c0)

/-- One component step of the shell-ring fold: emit a ring for the best
chain of the component if there is one. -/
def shellRingStep (accounts : List AccountNode)
    (uniqueChains : List (List String)) (st : List FraudRing × Nat)
    (comp : List String) : List FraudRing × Nat :=
  match bestChainFor uniqueChains comp with
  | none => st
  | some best =>
    (st.1 ++ [{ ring_id := RingId.ring (st.2 + 1)
                pattern_type := "shell_chain"
                members := best
                member_count := best.length
                risk_score := ringRisk accounts best
                total_value := 0
                explanation := ["Shell chain"] }],
     st.2 + 1)

/-- Shell-chain rings: one per connected component of the chain-union
graph, in component order. -/
def shellRingsOf (offset : Nat) (shellChains : List (List String))
    (accounts : List AccountNode) : List FraudRing :=
  let uniqueChains := dedupChains shellChains
  let comps := componentsOf (shellAdjOf uniqueChains)
  ((comps.foldl (shellRingStep accounts uniqueChains) ([], offset))).1

/-- Comparator of `rings.sort((a, b) => b.risk_score - a.risk_score)`. -/
def riskDescLe (a b : FraudRing) : Bool := decide (b.risk_score ≤ a.risk_score)

/-- Model of `buildFraudRings`: cycle, fan-in, fan-out and collapsed shell
rings with one monotonic counter, sorted by risk descending (stable). -/
def buildFraudRings (cycles : List (List String))
    (fanInMap fanOutMap : List (String × (List String × Nat × Nat)))
    (shellChains : List (List String)) (accounts : List AccountNode)
    (transactions : List RawTransaction) : List FraudRing :=
  let c := cycleRingsOf cycles accounts transactions
  let fi := fanInRingsOf c.length fanInMap accounts
  let fo := fanOutRingsOf (c.length + fi.length) fanOutMap accounts
  let sh := shellRingsOf (c.length + fi.length + fo.length) shellChains accounts
  sortBy riskDescLe (c ++ fi ++ fo ++ sh)

-- ─── Temporal cycle validation (`temporal-cycle-validation.ts`) ─────────────

/-- Earliest transaction on the directed edge `src → dst`
(strictly-earlier wins, first occurrence wins on ties). -/
def findEarliestTx (src dst : String) (transactions : List RawTransaction) :
    Option RawTransaction :=
  transactions.foldl
    (fun best tx =>
      if tx.sender_id = src ∧ tx.receiver_id = dst then
        match best with
        | none => some tx
        | some b => if tx.timestamp < b.timestamp then some tx else some b
      else best)
    none

/-- The chosen per-hop transactions of a cycle (hop `i` goes from
`cycle[i]` to `cycle[(i+1) % len]`); `none` if some hop has no
transaction. -/
def cycleHopTxs (cycle : List String) (transactions : List RawTransaction) :
    Option (List RawTransaction) :=
  (List.range cycle.length).mapM (fun i =>
    findEarliestTx (cycle.getD i "") (cycle.getD ((i + 1) % cycle.length) "")
      transactions)

/-- Rule 1: hop timestamps non-decreasing in hop order. -/
def chronoOK (hops : List RawTransaction) : Bool :=
  (hops.zip hops.tail).all (fun p => decide (p.1.timestamp ≤ p.2.timestamp))

/-- Rule 2: no hop amount drops below half of the previous hop's amount. -/
def amountOK (hops : List RawTransaction) : Bool :=
  (hops.zip hops.tail).all (fun p => decide (¬ (p.2.amount < p.1.amount * (1/2))))

/-- Model of `validateCycle`. -/
def validateCycle (cycle : List String) (transactions : List RawTransaction) :
    Bool :=
  match cycleHopTxs cycle transactions with
  | none => false
  | some hops => chronoOK hops ∧ amountOK hops

/-- Clean-up applied to a member that no longer participates in any
surviving cycle ring: zero the cycle score, recompute the clamped total,
drop the `cycle` tag and refresh `is_suspicious`. -/
def vtcCleanup (a : AccountNode) : AccountNode :=
  let ps : PatternScores := { a.pattern_scores with cycle := 0 }
  let total := clamp100 ps.sum
  { a with pattern_scores := ps
           suspicion_score := total
           detected_patterns := a.detected_patterns.filter (fun p => p ≠ "cycle")
           explanation := a.explanation ++ ["Cycle ring invalidated"]
           is_suspicious := decide (0 < total) }

/-- The `stillInCycle` probe: does any ring id held by the account resolve,
in the (not yet spliced) ring list, to a ring of pattern `cycle`? -/
def stillInCycleB (rings : List FraudRing) (ringIds : List RingId) : Bool :=
  ringIds.any (fun rid =>
    match rings.find? (fun fr => fr.ring_id = rid) with
    | some r => r.pattern_type = "cycle"
    | none => false)

/-- First half of the per-member step: drop the invalidated ring id. -/
def vtcFilterRing (ringId : RingId) (a : AccountNode) : AccountNode :=
  { a with ring_ids := a.ring_ids.filter (fun rid => rid ≠ ringId) }

/-- Per-member step for one invalidated ring. -/
def vtcMemberStep (rings : List FraudRing) (ringId : RingId)
    (a : AccountNode) : AccountNode :=
  if stillInCycleB rings (vtcFilterRing ringId a).ring_ids then
    vtcFilterRing ringId a
  else vtcCleanup (vtcFilterRing ringId a)

/-- Member loop for one invalidated ring. -/
def vtcProcessRing (rings : List FraudRing) (accounts : List AccountNode)
    (r : FraudRing) : List AccountNode :=
  r.members.foldl (fun acc m => updAcc m (vtcMemberStep rings r.ring_id) acc)
    accounts

/-- Model of `validateTemporalCycles`.  Ring ids are unique in the pipeline
(monotonic counter), so the `Map` keyed by ring id is modelled by the plain
filtered ring list; the splice loop at the end is the final filter.  The
unused `cycles` parameter of the source is dropped. -/
def vtcCycleRings (fraudRings : List FraudRing) : List FraudRing :=
  fraudRings.filter (fun r => r.pattern_type = "cycle")

/-- Ids collected in `invalidatedRingIds`. -/
def vtcInvalidIds (fraudRings : List FraudRing)
    (transactions : List RawTransaction) : List RingId :=
  ((vtcCycleRings fraudRings).filter
    (fun r => ¬ validateCycle r.members transactions)).map (fun r => r.ring_id)

def validateTemporalCycles (accounts : List AccountNode)
    (fraudRings : List FraudRing) (transactions : List RawTransaction) :
    List AccountNode × List FraudRing :=
  ((vtcCycleRings fraudRings).foldl
    (fun acc r =>
      if validateCycle r.members transactions then acc
      else vtcProcessRing fraudRings acc r)
    accounts,
   fraudRings.filter
    (fun r => ¬ (vtcInvalidIds fraudRings transactions).contains r.ring_id))

-- ─── Ring leadership (`centrality-analysis.ts`) ─────────────────────────────

/-- BFS phase state of Brandes' algorithm for one source. -/
structure BrandesState where
  queue : List String
  stack : List String
  pred : List (String × List String)
  sigma : List (String × Nat)
  dist : List (String × Int)

/-- BFS phase of Brandes' algorithm (fuel-driven queue loop). -/
def brandesBFSLoop (edges : List (String × List String)) :
    Nat → BrandesState → BrandesState
  | 0, st => st
  | fuel + 1, st =>
    match st.queue with
    | [] => st
    | v :: rest =>
      let st := { st with queue := rest, stack := st.stack ++ [v] }
      let nbrs := (alGet edges v).getD []
      let st := nbrs.foldl
        (fun st w =>
          let dv := (alGet st.dist v).getD (-1)
          let st :=
            if (alGet st.dist w).getD (-1) = -1 then
              { st with queue := st.queue ++ [w], dist := alSet st.dist w (dv + 1) }
            else st
          if (alGet st.dist w).getD (-1) = dv + 1 then
            { st with
                sigma := alSet st.sigma w
                  ((alGet st.sigma w).getD 0 + (alGet st.sigma v).getD 0)
                pred := alSet st.pred w (((alGet st.pred w).getD []) ++ [v]) }
          else st)
        st
      brandesBFSLoop edges fuel st

/-- Dependency back-propagation of Brandes' algorithm: pop the stack from
the top (end), accumulate `delta`, add into `cb` for every `w ≠ s`. -/
def brandesBackprop (s : String) (stack : List String)
    (pred : List (String × List String)) (sigma : List (String × Nat))
    (delta0 : List (String × Q)) (cb : List (String × Q)) :
    List (String × Q) :=
  (stack.reverse.foldl
    (fun (st : List (String × Q) × List (String × Q)) w =>
      let delta := ((alGet pred w).getD []).foldl
        (fun delta v =>
          let d := (alGet delta v).getD 0 +
            (Q.ofNat ((alGet sigma v).getD 0) / Q.ofNat ((alGet sigma w).getD 0)) *
              (1 + (alGet delta w).getD 0)
          alSet delta v d)
        st.1
      let cb :=
        if w ≠ s then
          alSet st.2 w ((alGet st.2 w).getD 0 + (alGet delta w).getD 0)
        else st.2
      (delta, cb))
    (delta0, cb)).2

/-- One source iteration of `brandesBetweenness`. -/
def brandesOne (nodes : List String) (edges : List (String × List String))
    (cb : List (String × Q)) (s : String) : List (String × Q) :=
  let pred0 := nodes.foldl (fun m v => alSet m v ([] : List String)) []
  let sigma0 := alSet (nodes.foldl (fun m v => alSet m v 0) []) s 1
  let dist0 := alSet (nodes.foldl (fun m v => alSet m v (-1 : Int)) []) s 0
  let delta0 := nodes.foldl (fun m v => alSet m v (0 : Q)) []
  let st := brandesBFSLoop edges (nodes.length + 2)
    { queue := [s], stack := [], pred := pred0, sigma := sigma0, dist := dist0 }
  brandesBackprop s st.stack st.pred st.sigma delta0 cb

/-- Model of `brandesBetweenness`, normalised by the maximum centrality
floored at `1e-9`. -/
def brandesBetweenness (nodes : List String)
    (edges : List (String × List String)) : List (String × Q) :=
  let cb0 := nodes.foldl (fun m v => alSet m v (0 : Q)) []
  let cb := nodes.foldl (fun cb s => brandesOne nodes edges cb s) cb0
  let maxCb := cb.foldl (fun m p => Q.max m p.2) (Q.mkRaw 1 1000000000)
  cb.map (fun p => (p.1, p.2 / maxCb))

/-- Model of `buildRingEdges`: ring-local directed edges, one entry per
distinct transaction-bearing pair, in first-occurrence order. -/
def buildRingEdges (members : List String) (transactions : List RawTransaction) :
    List (String × List String) :=
  let edges0 := members.foldl (fun m v => alSet m v ([] : List String)) []
  (transactions.foldl
    (fun (st : List (String × List String) × List (String × String)) tx =>
      if members.contains tx.sender_id ∧ members.contains tx.receiver_id then
        if st.2.contains (tx.sender_id, tx.receiver_id) then st
        else
          (alModify st.1 tx.sender_id (fun l => l ++ [tx.receiver_id]),
           st.2 ++ [(tx.sender_id, tx.receiver_id)])
      else st)
    (edges0, [])).1

/-- Model of `assignRole` (the `0.66` cutoff taken as an exact rational). -/
def assignRole (rank totalMembers : Nat) : String :=
  if rank = 0 then "ORCHESTRATOR"
  else if totalMembers ≤ 3 then "PERIPHERAL"
  else if (rank : Int) < (Q.ofNat totalMembers * Q.mkRaw 66 100).ceil then "INTERMEDIARY"
  else "PERIPHERAL"

/-- Comparator of `ranked.sort((a, b) => b.c - a.c)`. -/
def centralityDescLe (a b : String × Q) : Bool := decide (b.2 ≤ a.2)

/-- The `c > account.centrality_score` guard
(`undefined` compares as replaceable). -/
def leadershipKeepNew (c : Q) (a : AccountNode) : Bool :=
  match a.centrality_score with
  | none => true
  | some stored => decide (stored < c)

/-- Centrality/role half of the ranked-member update. -/
def leadershipCentralityUpd (rank total : Nat) (c : Q) (a : AccountNode) :
    AccountNode :=
  if leadershipKeepNew c a then
    { a with centrality_score := some (Q.ofInt (jsRound (c * 1000)) / 1000)
             ring_role := some (assignRole rank total) }
  else a

/-- Full ranked-member update, with the orchestrator +10 boost. -/
def leadershipAccountUpd (rank total : Nat) (c : Q) (a : AccountNode) :
    AccountNode :=
  if assignRole rank total = "ORCHESTRATOR" then
    { leadershipCentralityUpd rank total c a with
        suspicion_score :=
          min 100 ((leadershipCentralityUpd rank total c a).suspicion_score + 10)
        triggered_algorithms :=
          sAdd (leadershipCentralityUpd rank total c a).triggered_algorithms
            "Ring Leadership Centrality"
        explanation :=
          sAdd (leadershipCentralityUpd rank total c a).explanation
            "Identified as ORCHESTRATOR" }
  else leadershipCentralityUpd rank total c a

/-- Members of a ring ranked by descending ring-local centrality. -/
def rankedOf (transactions : List RawTransaction) (ring : FraudRing) :
    List (String × Q) :=
  sortBy centralityDescLe
    (ring.members.map (fun m =>
      (m, (alGet (brandesBetweenness ring.members
        (buildRingEdges (sOfList ring.members) transactions)) m).getD 0)))

/-- Per-ring body of `analyzeRingLeadership`. -/
def leadershipRingStep (transactions : List RawTransaction)
    (accounts : List AccountNode) (ring : FraudRing) : List AccountNode :=
  if (sOfList ring.members).length < 2 then accounts
  else
    (rankedOf transactions ring).enum.foldl
      (fun acc p =>
        updAcc p.2.1
          (leadershipAccountUpd p.1 (rankedOf transactions ring).length p.2.2)
          acc)
      accounts

/-- Model of `analyzeRingLeadership`. -/
def analyzeRingLeadership (accounts : List AccountNode)
    (fraudRings : List FraudRing) (transactions : List RawTransaction) :
    List AccountNode :=
  if fraudRings.isEmpty then accounts
  else fraudRings.foldl (leadershipRingStep transactions) accounts

-- ─── Multi-stage flows (`multi-stage-flow-analysis.ts`) ─────────────────────

/-- Earliest timestamp of a transaction linking the account to a member of
a ring of the given pattern type containing it (`Infinity` = `none`). -/
def earliestTsForPattern (accId : String) (ringsOfType : List FraudRing)
    (transactions : List RawTransaction) : Option Nat :=
  let peers := ringsOfType.foldl
    (fun s r => if r.members.contains accId then r.members.foldl sAdd s else s)
    []
  transactions.foldl
    (fun best tx =>
      if (tx.sender_id = accId ∧ peers.contains tx.receiver_id) ∨
          (tx.receiver_id = accId ∧ peers.contains tx.sender_id) then
        match best with
        | none => some tx.timestamp
        | some b => if tx.timestamp < b then some tx.timestamp else some b
      else best)
    none

/-- Comparator of `patternsWithTime.sort((a, b) => a.t - b.t)`:
`Infinity` sorts last, `Infinity` against `Infinity` is a NaN comparator
result that JS treats as a tie (stable). -/
def timeOptLe (a b : String × Option Nat) : Bool :=
  match a.2, b.2 with
  | none, none => true
  | none, some _ => false
  | some _, none => true
  | some x, some y => decide (x ≤ y)

/-- Account update of `detectMultiStageFlows` for an account spanning the
given distinct pattern types. -/
def multiStageAccountUpd (ringsByType : List (String × List FraudRing))
    (transactions : List RawTransaction) (patternTypes : List String)
    (a : AccountNode) : AccountNode :=
  let pw := patternTypes.map (fun pt =>
    (pt, earliestTsForPattern a.account_id ((alGet ringsByType pt).getD [])
      transactions))
  let flow := (sortBy timeOptLe pw).map (fun p => p.1)
  { a with laundering_stage := some "MULTI_STAGE"
           flow_pattern := flow
           suspicion_score := min 100 (a.suspicion_score + 20)
           triggered_algorithms := sAdd a.triggered_algorithms
             "Multi-Stage Flow Detection"
           explanation := a.explanation ++ ["Multi-stage laundering flow detected"]
           detected_patterns := sAdd a.detected_patterns "multi_stage" }

/-- Model of `detectMultiStageFlows`. -/
def detectMultiStageFlows (accounts : List AccountNode)
    (fraudRings : List FraudRing) (transactions : List RawTransaction) :
    List AccountNode :=
  if fraudRings.isEmpty then accounts
  else
    let ringsByType := fraudRings.foldl
      (fun m r => alSet m r.pattern_type (((alGet m r.pattern_type).getD []) ++ [r]))
      []
    let accountRings := fraudRings.foldl
      (fun m r => r.members.foldl
        (fun m mem => alSet m mem (sAdd ((alGet m mem).getD []) r.pattern_type))
        m)
      []
    accountRings.foldl
      (fun acc p =>
        if p.2.length < 2 then acc
        else updAcc p.1 (multiStageAccountUpd ringsByType transactions p.2) acc)
      accounts

-- ─── Mule community detection (`detectMuleCommunities`) ─────────────────────

/-- Output bundle of `detectMuleCommunities`. -/
structure CommunityResult where
  rings : List FraudRing
  membershipMap : List (String × List RingId)
  mergedRingMap : List (RingId × List RingId)

/-- Connected components explored in the order of `keys`, using the shared
visited set of the source. -/
def componentsOver (adj : List (String × List String)) (keys : List String) :
    List (List String) :=
  (keys.foldl
    (fun (st : List (List String) × List String) node =>
      if st.2.contains node then st
      else
        let r := compLoop adj (adj.length + 2) [node] (st.2 ++ [node]) []
        (st.1 ++ [r.2], r.1))
    ([], [])).1

/-- Count of directed edges (distinct sender→receiver pairs) inside a
component. -/
def internalEdgeCount (g : AdjList) (comp : List String) : Nat :=
  comp.foldl
    (fun n nodeId =>
      n + (((alGet g nodeId).getD []).filter (fun p => comp.contains p.1)).length)
    0

/-- Sum of transaction amounts on directed in-component edges. -/
def compTotalValue (g : AdjList) (comp : List String) : Q :=
  comp.foldl
    (fun tv nodeId =>
      ((alGet g nodeId).getD []).foldl
        (fun tv q => if comp.contains q.1 then tv + txAmountSum q.2 else tv)
        tv)
    0

/-- Independent evidence categories of a component, in the order the source
collects them: cycle member, fan-in node, fan-out node, shell-chain node,
bridge node (suspicious undirected degree ≥ 2), density (directed
in-component edges ≥ nodes).  Each label appears at most once. -/
def componentEvidences (comp : List String)
    (suspAdj : List (String × List String))
    (cycleNodes fanInNodes fanOutNodes shellNodeSet : List String)
    (internalEdges : Nat) : List String :=
  (if comp.any (fun n => cycleNodes.contains n) then ["cycle"] else []) ++
  (if comp.any (fun n => fanInNodes.contains n) then ["fan_in"] else []) ++
  (if comp.any (fun n => fanOutNodes.contains n) then ["fan_out"] else []) ++
  (if comp.any (fun n => shellNodeSet.contains n) then ["shell_chain"] else []) ++
  (if comp.any (fun n =>
      match alGet suspAdj n with
      | some adj => 2 ≤ adj.length
      | none => false) then ["bridge"] else []) ++
  (if comp.length ≤ internalEdges then ["density"] else [])

/-- Community ring risk score:
`min(100, round(avg + log2(member_count + 1) * 10))`, with `Math.log2`
modelled by the structural `log2n` (see the header note). -/
def communityRisk (accounts : List AccountNode) (comp : List String) : Int :=
  let avg := memberScoreSum accounts comp / Q.ofNat comp.length
  min 100 (jsRound (avg + Q.ofNat (log2n (comp.length + 1)) * 10))

/-- Union of the members of a chain/cycle collection, insertion-ordered. -/
def nodeUnion (paths : List (List String)) : List String :=
  paths.foldl (fun s c => c.foldl sAdd s) []

/-- Undirected adjacency of the suspicious subgraph: both endpoints
suspicious and at least one directed edge between them. -/
def suspiciousAdj (g : AdjList) (suspiciousIds : List String) :
    List (String × List String) :=
  suspiciousIds.foldl
    (fun adj nodeId =>
      let adj := alEnsure adj nodeId []
      ((alGet g nodeId).getD []).foldl
        (fun adj p =>
          if ¬ suspiciousIds.contains p.1 then adj
          else
            let adj := alEnsure adj p.1 []
            let adj := alModify adj nodeId (fun s => sAdd s p.1)
            alModify adj p.1 (fun s => sAdd s nodeId))
        adj)
    []

/-- One component step of the community fold: emit a community ring when
the component exhibits at least two evidence categories. -/
def commStep (g : AdjList) (accounts : List AccountNode)
    (suspAdj : List (String × List String))
    (cycleNodes fanInNodes fanOutNodes shellNodeSet : List String)
    (accountToPatternRings : List (String × List RingId))
    (st : CommunityResult × Nat) (comp : List String) : CommunityResult × Nat :=
  let internalEdges := internalEdgeCount g comp
  let evidences := componentEvidences comp suspAdj cycleNodes fanInNodes
    fanOutNodes shellNodeSet internalEdges
  if evidences.length < 2 then st
  else
    let commIdx := st.2 + 1
    let ringId := RingId.comm commIdx
    let subsumed := comp.foldl
      (fun s mem => ((alGet accountToPatternRings mem).getD []).foldl sAdd s)
      []
    let tv := compTotalValue g comp
    let ring : FraudRing :=
      { ring_id := ringId
        pattern_type := "community"
        members := comp
        member_count := comp.length
        risk_score := communityRisk accounts comp
        total_value := Q.ofInt (jsRound (tv * 100)) / 100
        explanation := "Interconnected mule community" :: evidences }
    let membership := comp.foldl
      (fun m mem => alSet m mem (((alGet m mem).getD []) ++ [ringId]))
      st.1.membershipMap
    ({ rings := st.1.rings ++ [ring]
       membershipMap := membership
       mergedRingMap := alSet st.1.mergedRingMap ringId subsumed },
     commIdx)

/-- Model of `detectMuleCommunities`. -/
def detectMuleCommunities (g : AdjList) (accounts : List AccountNode)
    (cycles : List (List String))
    (fanInMap fanOutMap : List (String × (List String × Nat × Nat)))
    (shellChains : List (List String)) (patternRings : List FraudRing) :
    CommunityResult :=
  let suspiciousIds := (accounts.filter (fun a => 0 < a.suspicion_score)).map
    (fun a => a.account_id)
  let suspAdj := suspiciousAdj g suspiciousIds
  let components := (componentsOver suspAdj suspiciousIds).filter
    (fun c => 2 ≤ c.length)
  let cycleNodes := nodeUnion cycles
  let fanInNodes := fanInMap.map (fun p => p.1)
  let fanOutNodes := fanOutMap.map (fun p => p.1)
  let shellNodeSet := nodeUnion shellChains
  let accountToPatternRings := patternRings.foldl
    (fun m r => r.members.foldl
      (fun m mem => alSet m mem (sAdd ((alGet m mem).getD []) r.ring_id))
      m)
    []
  let final := components.foldl
    (commStep g accounts suspAdj cycleNodes fanInNodes fanOutNodes shellNodeSet
      accountToPatternRings)
    (({ rings := [], membershipMap := [], mergedRingMap := [] }, 0))
  final.1

-- ─── Spec-modelled passes (source files absent from `src/`) ─────────────────

/-- Modelled from the spec: `relationship-intelligence.ts` is imported by
the engine but is not under `src/`.  Spec section 4.8.1: the pass looks at
every non-cycle-member account, identifies recurring-pair relationships
(same sender-receiver pair with repeated transactions; the threshold `N`
is unspecified, taken as 3) and applies a bounded negative adjustment
(taken as 10) to matching accounts, with the score kept inside `[0, 100]`
per the section-3 clamp invariant.  Cycle members are immune.  It touches
only `suspicion_score` and the explanation log, never `pattern_scores`. -/
def hasRecurringPair (accId : String) (transactions : List RawTransaction) :
    Bool :=
  transactions.any (fun tx =>
    (tx.sender_id = accId ∨ tx.receiver_id = accId) ∧
    3 ≤ (transactions.filter (fun u =>
      u.sender_id = tx.sender_id ∧ u.receiver_id = tx.receiver_id)).length)

/-- Modelled from the spec: score adjustment of the relationship
intelligence layer (see `hasRecurringPair`). -/
def adjustScoresUsingRelationshipIntelligence (accounts : List AccountNode)
    (transactions : List RawTransaction) (cycleMembers : List String) :
    List AccountNode :=
  accounts.map (fun a =>
    if cycleMembers.contains a.account_id then a
    else if hasRecurringPair a.account_id transactions then
      { a with suspicion_score := min 100 (max 0 (a.suspicion_score - 10))
               explanation := a.explanation ++ ["Relationship intelligence adjustment"] }
    else a)

/-- Modelled from the spec: `fan-in-validation.ts` is imported by the
engine but is not under `src/`.  Spec section 4.10: every fan-in receiver
is an aggregation candidate; a candidate is upgraded to
`confirmed_money_laundering` iff one of four corroboration conditions
holds.  Conditions 2 (cycle participation or sending to a cycle member),
3 (≥ 50 % of the received amount leaves within 24 h of the latest
incoming transaction) and 4 (role conflict with the shell-node, fan-out
or cycle sets) are modelled; condition 1 (shell-path ±20 % amount
preservation) is omitted — no claim depends on which candidates are
promoted.  Promotion annotates `fan_in_promotion` and the explanation
log only and never alters scores or detection outputs (spec sections
4.10 and 9). -/
def validateFanInTwoPhase (accounts : List AccountNode)
    (transactions : List RawTransaction) (cycles : List (List String))
    (shellChains : List (List String))
    (fanOutMap : List (String × (List String × Nat × Nat))) :
    List AccountNode :=
  let cycleMembers := nodeUnion cycles
  let shellSet := nodeUnion shellChains
  let fanOutSenders := fanOutMap.map (fun p => p.1)
  accounts.map (fun a =>
    if a.detected_patterns.contains "fan_in" then
      let cond2 := cycleMembers.contains a.account_id ∨
        transactions.any (fun tx =>
          tx.sender_id = a.account_id ∧ cycleMembers.contains tx.receiver_id)
      let latestIn := transactions.foldl
        (fun best tx =>
          if tx.receiver_id = a.account_id then
            match best with
            | none => some tx.timestamp
            | some b => if b < tx.timestamp then some tx.timestamp else some b
          else best)
        none
      let cond3 :=
        match latestIn with
        | none => false
        | some t0 =>
          decide (a.total_amount_received ≤
            2 * txAmountSum (transactions.filter (fun tx =>
              tx.sender_id = a.account_id ∧ t0 ≤ tx.timestamp ∧
              tx.timestamp ≤ t0 + 86400000)))
      let cond4 := shellSet.contains a.account_id ∨
        fanOutSenders.contains a.account_id ∨
        cycleMembers.contains a.account_id
      let tag := if cond2 ∨ cond3 = true ∨ cond4
        then "confirmed_money_laundering" else "aggregation_candidate"
      { a with fan_in_promotion := some tag
               explanation := a.explanation ++ ["Fan-in promotion phase 2"] }
    else a)

-- ─── Pipeline assembly (`analyzeTransactions`) ──────────────────────────────

/-- Push every ring id onto its members' `ring_ids` (skipping duplicates). -/
def applyRingMembership (accounts : List AccountNode)
    (rings : List FraudRing) : List AccountNode :=
  rings.foldl
    (fun acc ring =>
      ring.members.foldl
        (fun acc mem =>
          updAcc mem
            (fun a =>
              if a.ring_ids.contains ring.ring_id then a
              else { a with ring_ids := a.ring_ids ++ [ring.ring_id] })
            acc)
        acc)
    accounts

/-- Community metadata update: drop subsumed pattern ring ids, append the
community ring ids, tag pattern and algorithm lists. -/
def applyCommunityUpdates (accounts : List AccountNode)
    (membershipMap : List (String × List RingId))
    (mergedRingMap : List (RingId × List RingId)) : List AccountNode :=
  membershipMap.foldl
    (fun acc p =>
      updAcc p.1
        (fun a =>
          let allSubsumed := p.2.foldl
            (fun s crid => ((alGet mergedRingMap crid).getD []).foldl sAdd s)
            []
          let rids := a.ring_ids.filter (fun rid => ¬ allSubsumed.contains rid)
          let rids := p.2.foldl
            (fun rids rid => if rids.contains rid then rids else rids ++ [rid])
            rids
          { a with ring_ids := rids
                   detected_patterns := sAdd a.detected_patterns "community"
                   triggered_algorithms := sAdd a.triggered_algorithms
                     "Mule Community Detection (BFS Components)"
                   explanation := a.explanation ++ ["Community member"] })
        acc)
    accounts

/-- Mode switches of the detection phase. -/
def runsCycles : DetectionMode → Bool
  | .all => true
  | .cycles => true
  | _ => false

def runsFanIn : DetectionMode → Bool
  | .all => true
  | .fanInOnly => true
  | _ => false

def runsFanOut : DetectionMode → Bool
  | .all => true
  | .fanOutOnly => true
  | _ => false

def runsShell : DetectionMode → Bool
  | .all => true
  | .shell => true
  | _ => false

/-- Comparator of `accounts.sort((a, b) => b.suspicion_score - a.suspicion_score)`. -/
def scoreDescLe (a b : AccountNode) : Bool :=
  decide (b.suspicion_score ≤ a.suspicion_score)

/-- Stage values of the pipeline, named so that theorems can refer to the
intermediate states of `analyzeTransactions` directly. -/
def pGraph (transactions : List RawTransaction) : AdjList :=
  buildAdjacencyList transactions

def pAccounts0 (transactions : List RawTransaction) : List AccountNode :=
  buildAccounts transactions (pGraph transactions)

def pCyclesRes (transactions : List RawTransaction) (mode : DetectionMode) :
    List (List String) × List (String × List RingId) :=
  if runsCycles mode then
    detectCycles (pGraph transactions) (adjNodes (pGraph transactions))
  else ([], [])

def pFanIn (transactions : List RawTransaction) (mode : DetectionMode) :
    List (String × (List String × Nat × Nat)) :=
  if runsFanIn mode then detectFanIn transactions else []

def pFanOut (transactions : List RawTransaction) (mode : DetectionMode) :
    List (String × (List String × Nat × Nat)) :=
  if runsFanOut mode then detectFanOut transactions else []

def pShellRes (transactions : List RawTransaction) (mode : DetectionMode) :
    List (List String) × List String :=
  if runsShell mode then
    detectShellChains (pGraph transactions) (pAccounts0 transactions)
  else ([], [])

def pScored (transactions : List RawTransaction) (mode : DetectionMode) :
    List AccountNode :=
  calculateSuspicionScores (pAccounts0 transactions)
    (pCyclesRes transactions mode).2 (pFanIn transactions mode)
    (pFanOut transactions mode) (pShellRes transactions mode).2 transactions

def pRings0 (transactions : List RawTransaction) (mode : DetectionMode) :
    List FraudRing :=
  buildFraudRings (pCyclesRes transactions mode).1 (pFanIn transactions mode)
    (pFanOut transactions mode) (pShellRes transactions mode).1
    (pScored transactions mode) transactions

def pAccounts3 (transactions : List RawTransaction) (mode : DetectionMode) :
    List AccountNode :=
  adjustScoresUsingRelationshipIntelligence
    (applyRingMembership (pScored transactions mode) (pRings0 transactions mode))
    transactions (nodeUnion (pCyclesRes transactions mode).1)

def pVtc (transactions : List RawTransaction) (mode : DetectionMode) :
    List AccountNode × List FraudRing :=
  validateTemporalCycles (pAccounts3 transactions mode)
    (pRings0 transactions mode) transactions

def pAccounts6 (transactions : List RawTransaction) (mode : DetectionMode) :
    List AccountNode :=
  detectMultiStageFlows
    (analyzeRingLeadership (pVtc transactions mode).1 (pVtc transactions mode).2
      transactions)
    (pVtc transactions mode).2 transactions

def pComm (transactions : List RawTransaction) (mode : DetectionMode) :
    CommunityResult :=
  detectMuleCommunities (pGraph transactions) (pAccounts6 transactions mode)
    (pCyclesRes transactions mode).1 (pFanIn transactions mode)
    (pFanOut transactions mode) (pShellRes transactions mode).1
    (pVtc transactions mode).2

def pRingsFinal (transactions : List RawTransaction) (mode : DetectionMode) :
    List FraudRing :=
  sortBy riskDescLe ((pVtc transactions mode).2 ++ (pComm transactions mode).rings)

def pAccountsFinal (transactions : List RawTransaction) (mode : DetectionMode) :
    List AccountNode :=
  sortBy scoreDescLe
    (validateFanInTwoPhase
      (applyCommunityUpdates (pAccounts6 transactions mode)
        (pComm transactions mode).membershipMap
        (pComm transactions mode).mergedRingMap)
      transactions (pCyclesRes transactions mode).1
      (pShellRes transactions mode).1 (pFanOut transactions mode))

def pSuspicious (transactions : List RawTransaction) (mode : DetectionMode) :
    List SuspiciousAccount :=
  ((pAccountsFinal transactions mode).filter (fun a => 0 < a.suspicion_score)).map
    (fun a =>
      ({ account_id := a.account_id
         suspicion_score := a.suspicion_score
         detected_patterns := a.detected_patterns
         ring_id := a.ring_ids.head?
         triggered_algorithms := a.triggered_algorithms
         explanation := a.explanation } : SuspiciousAccount))

/-- Model of `analyzeTransactions`.  `elapsedMs` is the difference of the
two `performance.now()` readings taken around the pipeline; it is an input
of the model because wall-clock time is not a function of the
transaction list. -/
def analyzeTransactions (transactions : List RawTransaction)
    (mode : DetectionMode) (elapsedMs : Q) : AnalysisResult :=
  { accounts := pAccountsFinal transactions mode
    transactions := transactions
    fraudRings := pRingsFinal transactions mode
    summary :=
      { total_accounts_analyzed := (pAccountsFinal transactions mode).length
        total_transactions := transactions.length
        suspicious_accounts_flagged := (pSuspicious transactions mode).length
        fraud_rings_detected := (pRingsFinal transactions mode).length
        processing_time_seconds := Q.ofInt (jsRound elapsedMs) / 1000 }
    suspicious_accounts := pSuspicious transactions mode }

-- ─── Spec-side definitions and concrete inputs ──────────────────────────────

/-- Ids of an account list, in order. -/
def idsOf (l : List AccountNode) : List String :=
  l.map (fun a => a.account_id)

/-- Result with the wall-clock field blanked, to state clock-independence. -/
def scrubTime (r : AnalysisResult) : AnalysisResult :=
  { r with summary := { r.summary with processing_time_seconds := 0 } }

/-- Written from the spec's words (refinement comparison only): the sum over
the cycle's hops of the amount of the FIRST transaction on each hop edge
(one transaction per hop). -/
def specFirstHopTotal (cycle : List String) (transactions : List RawTransaction) :
    Q :=
  (List.range cycle.length).foldl
    (fun s i => s + (((hopMatching cycle i transactions).head?).map
      (fun tx => tx.amount)).getD 0)
    0

/-- Per-hop reading of the ring value the code actually computes, written
at the numeric (`Rat`) level: the sum over the cycle's hops of the amounts
of ALL transactions on that hop edge. -/
def specAllHopTotal (cycle : List String) (transactions : List RawTransaction) :
    Rat :=
  ((List.range cycle.length).map
    (fun i => ((hopMatching cycle i transactions).map
      (fun tx => tx.amount.toRat)).sum)).sum

/-- Written from the spec's words (claim C7): some window of at most 72
hours (boundary inclusive) contains transactions to `rcv` from at least 10
distinct senders. -/
def FanInEvidence (rcv : String) (transactions : List RawTransaction) : Prop :=
  ∃ (ws : List RawTransaction) (lo hi : Nat),
    (∀ tx ∈ ws, tx ∈ transactions ∧ tx.receiver_id = rcv ∧
      lo ≤ tx.timestamp ∧ tx.timestamp ≤ hi) ∧
    hi - lo ≤ window72h ∧
    10 ≤ (sOfList (ws.map (fun tx => tx.sender_id))).length

/-- The evidence-category list the community detector computes for a
component of the suspicious subgraph, at the pipeline's community stage. -/
def pCommEvidences (transactions : List RawTransaction) (mode : DetectionMode)
    (comp : List String) : List String :=
  componentEvidences comp
    (suspiciousAdj (pGraph transactions)
      (((pAccounts6 transactions mode).filter
        (fun a => 0 < a.suspicion_score)).map (fun a => a.account_id)))
    (nodeUnion (pCyclesRes transactions mode).1)
    ((pFanIn transactions mode).map (fun p => p.1))
    ((pFanOut transactions mode).map (fun p => p.1))
    (nodeUnion (pShellRes transactions mode).1)
    (internalEdgeCount (pGraph transactions) comp)

/-- Score bounds invariant of claim C2. -/
def ScoreInv (a : AccountNode) : Prop :=
  0 ≤ a.suspicion_score ∧ a.suspicion_score ≤ 100

/-- Pattern-score component invariant of claim C10: each component is
either zero or exactly its weight. -/
def PatInv (a : AccountNode) : Prop :=
  (a.pattern_scores.fan_in = 0 ∨ a.pattern_scores.fan_in = 30) ∧
  (a.pattern_scores.fan_out = 0 ∨ a.pattern_scores.fan_out = 30) ∧
  (a.pattern_scores.cycle = 0 ∨ a.pattern_scores.cycle = 40) ∧
  (a.pattern_scores.shell = 0 ∨ a.pattern_scores.shell = 35) ∧
  (a.pattern_scores.velocity = 0 ∨ a.pattern_scores.velocity = 15)

/-- Combined account invariant carried through the pipeline. -/
def AccInv (a : AccountNode) : Prop := ScoreInv a ∧ PatInv a

/-- State of a member cleaned up by the temporal cycle validator
(claim C5). -/
def CleanProps (a : AccountNode) : Prop :=
  a.pattern_scores.cycle = 0 ∧
  "cycle" ∉ a.detected_patterns ∧
  a.suspicion_score = clamp100 a.pattern_scores.sum ∧
  a.is_suspicious = decide (0 < a.suspicion_score)

/-- Default transaction used with `List.getD` in index-level statements. -/
def dTx : RawTransaction :=
  { transaction_id := "", sender_id := "", receiver_id := "", amount := 0,
    timestamp := 0 }

/-- Base instant of the concrete scenarios (epoch milliseconds). -/
def t0 : Nat := 1700000000000

/-- Concrete transaction builder for the scenario inputs. -/
def mkTx (i : Nat) (s r : String) (amt : Q) (ts : Nat) : RawTransaction :=
  { transaction_id := toString i, sender_id := s, receiver_id := r,
    amount := amt, timestamp := ts }

/-- Seeded scenario 1 of the spec: a temporally consistent 3-cycle. -/
def cyc3Txs : List RawTransaction :=
  [ mkTx 1 "A" "B" 5000 t0,
    mkTx 2 "B" "C" 4800 (t0 + 2 * 3600000),
    mkTx 3 "C" "A" 4600 (t0 + 4 * 3600000) ]

/-- Seeded scenario 2 of the spec: the same cycle broken in time
(`C → A` happens 10 h before `A → B`). -/
def brokTxs : List RawTransaction :=
  [ mkTx 1 "A" "B" 5000 t0,
    mkTx 2 "B" "C" 4800 (t0 + 2 * 3600000),
    mkTx 3 "C" "A" 4600 (t0 - 10 * 3600000) ]

/-- A 3-cycle in which the hop `A → B` carries two transactions, so the
ring value sums four transactions while the spec's first-per-hop reading
sums three. -/
def dupTxs : List RawTransaction :=
  [ mkTx 1 "A" "B" 100 t0,
    mkTx 2 "A" "B" 100 (t0 + 1000),
    mkTx 3 "B" "C" 100 (t0 + 2000),
    mkTx 4 "C" "A" 100 (t0 + 3000) ]

/-- Failing input of claim C3: a shell chain `X → S1 → S2 → S3 → Y`
together with a fan-in of ten distinct senders on `R`, where `X` is both a
shell-chain endpoint (score 0) and one of the fan-in senders, so `X` sits
in two rings of distinct pattern types and receives the +20 multi-stage
boost after `is_suspicious` was last computed. -/
def c3Txs : List RawTransaction :=
  [ mkTx 1 "X" "S1" 100 (t0 + 1000),
    mkTx 2 "S1" "S2" 100 (t0 + 2000),
    mkTx 3 "S2" "S3" 100 (t0 + 3000),
    mkTx 4 "S3" "Y" 100 (t0 + 4000),
    mkTx 5 "A1" "R" 100 (t0 + 10000),
    mkTx 6 "A2" "R" 100 (t0 + 11000),
    mkTx 7 "A3" "R" 100 (t0 + 12000),
    mkTx 8 "A4" "R" 100 (t0 + 13000),
    mkTx 9 "A5" "R" 100 (t0 + 14000),
    mkTx 10 "A6" "R" 100 (t0 + 15000),
    mkTx 11 "A7" "R" 100 (t0 + 16000),
    mkTx 12 "A8" "R" 100 (t0 + 17000),
    mkTx 13 "A9" "R" 100 (t0 + 18000),
    mkTx 14 "X" "R" 100 (t0 + 19000) ]

/-- Concrete cycle ring used by the C4 and C5 witnesses. -/
def c4Ring : FraudRing :=
  { ring_id := RingId.ring 1
    pattern_type := "cycle"
    members := ["A", "B", "C"]
    member_count := 3
    risk_score := 40
    total_value := 14400
    explanation := [] }

/-- Per-account view of the temporal-validation fold: the net effect of
processing the ring list `rs` on one account record. -/
def vtcAccountFold (rings : List FraudRing) (transactions : List RawTransaction)
    (rs : List FraudRing) (a : AccountNode) : AccountNode :=
  rs.foldl
    (fun a r =>
      if validateCycle r.members transactions then a
      else if a.account_id ∈ r.members then vtcMemberStep rings r.ring_id a
      else a)
    a

/-- Concrete cycle-member account used by the C5 witness. -/
def c5Account (accId : String) : AccountNode :=
  { freshAccount accId with
      suspicion_score := 40
      pattern_scores := { fan_in := 0, fan_out := 0, cycle := 40, shell := 0,
                          velocity := 0 }
      detected_patterns := ["cycle"]
      ring_ids := [RingId.ring 1]
      is_suspicious := true }

/-- Concrete account list used by the C5 witness. -/
def c5Accounts : List AccountNode :=
  [c5Account "A", c5Account "B", c5Account "C"]

-- ════════════════════════════════════════════════════════════════════════════
-- Lemmas and claim theorems
-- ════════════════════════════════════════════════════════════════════════════

theorem mem_insOrd (le : α → α → Bool) (x : α) (l : List α) (a : α) :
    a ∈ insOrd le x l ↔ a = x ∨ a ∈ l := by
  induction l with
  | nil => simp [insOrd]
  | cons y ys ih =>
    by_cases h : le x y = true
    · simp only [insOrd, if_pos h, List.mem_cons]
    · simp only [insOrd, if_neg h, List.mem_cons, ih]; tauto

theorem mem_sortBy (le : α → α → Bool) (l : List α) (a : α) :
    a ∈ sortBy le l ↔ a ∈ l := by
  induction l with
  | nil => simp [sortBy]
  | cons y ys ih =>
    show a ∈ insOrd le y (sortBy le ys) ↔ _
    rw [mem_insOrd, ih, List.mem_cons]

/-- Totality and transitivity of the comparator give sortedness of `sortBy`. -/
theorem pairwise_sortBy (le : α → α → Bool) (htot : ∀ a b, le a b ∨ le b a)
    (htrans : ∀ a b c, le a b → le b c → le a c)
    (l : List α) : (sortBy le l).Pairwise (fun a b => le a b = true) := by
  induction l with
  | nil => exact List.Pairwise.nil
  | cons y ys ih =>
    show (insOrd le y (sortBy le ys)).Pairwise _
    have hins : ∀ (m : List α), m.Pairwise (fun a b => le a b = true) →
        (insOrd le y m).Pairwise (fun a b => le a b = true) := by
      intro m
      induction m with
      | nil => intro _; simp [insOrd]
      | cons z zs ihm =>
        intro hp
        rw [List.pairwise_cons] at hp
        by_cases h : le y z = true
        · rw [insOrd, if_pos h, List.pairwise_cons]
          constructor
          · intro b hb
            rcases List.mem_cons.mp hb with rfl | hb'
            · exact h
            · exact htrans y z b h (hp.1 b hb')
          · exact List.pairwise_cons.mpr hp
        · rw [insOrd, if_neg h, List.pairwise_cons]
          constructor
          · intro b hb
            rcases (mem_insOrd le y zs b).mp hb with rfl | hb'
            · rcases htot z b with hzb | hbz
              · exact hzb
              · exact absurd hbz (by simpa using h)
            · exact hp.1 b hb'
          · exact ihm hp.2
    exact hins _ ih

theorem contains_iff_mem {α} [DecidableEq α] [BEq α] [LawfulBEq α]
    (l : List α) (x : α) : l.contains x = true ↔ x ∈ l := List.elem_iff

theorem mem_sAdd {α} [DecidableEq α] (l : List α) (x a : α) :
    a ∈ sAdd l x ↔ a ∈ l ∨ a = x := by
  unfold sAdd
  by_cases h : l.any (fun y => y = x) = true
  · rw [if_pos h]
    simp only [List.any_eq_true, decide_eq_true_eq] at h
    rcases h with ⟨y, hy, rfl⟩
    constructor
    · exact Or.inl
    · rintro (h | rfl)
      · exact h
      · exact hy
  · rw [if_neg h, List.mem_append, List.mem_singleton]

theorem nodup_sAdd {α} [DecidableEq α] (l : List α) (x : α) (h : l.Nodup) :
    (sAdd l x).Nodup := by
  unfold sAdd
  by_cases hx : l.any (fun y => y = x) = true
  · rwa [if_pos hx]
  · rw [if_neg hx]
    refine List.Nodup.append h (List.nodup_singleton x) ?_
    intro a ha hax
    rw [List.mem_singleton] at hax
    exact hx (List.any_eq_true.mpr ⟨a, ha, by simp [hax]⟩)

theorem mem_foldl_sAdd {α} [DecidableEq α] (xs : List α) (acc : List α) (a : α) :
    a ∈ xs.foldl sAdd acc ↔ a ∈ acc ∨ a ∈ xs := by
  induction xs generalizing acc with
  | nil => simp
  | cons x xs ih =>
    rw [List.foldl_cons, ih, mem_sAdd, List.mem_cons]
    tauto

theorem mem_sOfList {α} [DecidableEq α] (xs : List α) (a : α) :
    a ∈ sOfList xs ↔ a ∈ xs := by
  rw [sOfList, mem_foldl_sAdd]
  simp

theorem nodup_foldl_sAdd {α} [DecidableEq α] (xs : List α) (acc : List α)
    (h : acc.Nodup) : (xs.foldl sAdd acc).Nodup := by
  induction xs generalizing acc with
  | nil => exact h
  | cons x xs ih => exact ih _ (nodup_sAdd _ _ h)

theorem nodup_sOfList {α} [DecidableEq α] (xs : List α) : (sOfList xs).Nodup :=
  nodup_foldl_sAdd xs [] List.nodup_nil

theorem mem_alSet {κ α} [DecidableEq κ] (m : List (κ × α)) (k : κ) (v : α)
    (q : κ × α) (h : q ∈ alSet m k v) : q = (k, v) ∨ q ∈ m := by
  unfold alSet at h
  by_cases hk : alHas m k = true
  · rw [if_pos hk] at h
    unfold alModify at h
    rcases List.mem_map.mp h with ⟨p, hp, hq⟩
    by_cases hpk : p.1 = k
    · rw [if_pos hpk] at hq
      left
      rw [← hq, hpk]
    · rw [if_neg hpk] at hq
      right
      rwa [← hq]
  · rw [if_neg hk] at h
    rcases List.mem_append.mp h with h | h
    · exact Or.inr h
    · exact Or.inl (List.mem_singleton.mp h)

-- ─── Account-list update machinery ──────────────────────────────────────────

theorem mem_updAcc {f : AccountNode → AccountNode} {accId : String}
    {l : List AccountNode} {a' : AccountNode} (h : a' ∈ updAcc accId f l) :
    ∃ a ∈ l, a' = f a ∨ a' = a := by
  rcases List.mem_map.mp h with ⟨a, ha, hq⟩
  by_cases hid : a.account_id = accId
  · exact ⟨a, ha, Or.inl (by rw [← hq, if_pos hid])⟩
  · exact ⟨a, ha, Or.inr (by rw [← hq, if_neg hid])⟩

theorem updAcc_pres {P : AccountNode → Prop} {f : AccountNode → AccountNode}
    {accId : String} {l : List AccountNode}
    (hf : ∀ a, P a → P (f a)) (hl : ∀ a ∈ l, P a) :
    ∀ a' ∈ updAcc accId f l, P a' := by
  intro a' h
  obtain ⟨a, ha, hcase⟩ := mem_updAcc h
  rcases hcase with h1 | h1
  · rw [h1]; exact hf a (hl a ha)
  · rw [h1]; exact hl a ha

theorem foldl_pres {β : Type _} {P : AccountNode → Prop}
    (step : List AccountNode → β → List AccountNode)
    (h : ∀ l b, (∀ a ∈ l, P a) → ∀ a' ∈ step l b, P a')
    (bs : List β) :
    ∀ l, (∀ a ∈ l, P a) → ∀ a' ∈ bs.foldl step l, P a' := by
  induction bs with
  | nil => intro l hl; exact hl
  | cons b bs ih =>
    intro l hl
    exact ih (step l b) (h l b hl)

theorem idsOf_updAcc {f : AccountNode → AccountNode} {accId : String}
    (l : List AccountNode) (hf : ∀ a, (f a).account_id = a.account_id) :
    idsOf (updAcc accId f l) = idsOf l := by
  unfold idsOf updAcc
  rw [List.map_map]
  apply List.map_congr_left
  intro a _
  by_cases hid : a.account_id = accId
  · simp [hid, hf]
  · simp [hid]

theorem idsOf_map {f : AccountNode → AccountNode}
    (l : List AccountNode) (hf : ∀ a, (f a).account_id = a.account_id) :
    idsOf (l.map f) = idsOf l := by
  unfold idsOf
  rw [List.map_map]
  apply List.map_congr_left
  intro a _
  exact hf a

theorem foldl_idsOf {β : Type _} (step : List AccountNode → β → List AccountNode)
    (h : ∀ l b, idsOf (step l b) = idsOf l) (bs : List β) :
    ∀ l, idsOf (bs.foldl step l) = idsOf l := by
  induction bs with
  | nil => intro l; rfl
  | cons b bs ih =>
    intro l
    rw [List.foldl_cons, ih, h]

-- ─── Claim C1: determinism ──────────────────────────────────────────────────

/-- C1 (counterexample): `analyze` run twice does not return byte-identical
summaries — `processing_time_seconds` is wall-clock time, so two runs of
the same input with different clock readings differ in a summary field. -/
theorem analyze_summary_depends_on_clock :
    (analyzeTransactions [] DetectionMode.all 0).summary ≠
    (analyzeTransactions [] DetectionMode.all 1000).summary := by decide

/-- C1 (amended): for every input and mode, everything in the result other
than `summary.processing_time_seconds` — accounts and their ordering,
`detected_patterns`, explanations, ring id sequences, the suspicious
projection and the remaining summary fields — is independent of the clock
readings, hence identical across runs. -/
theorem analyze_deterministic_except_time (transactions : List RawTransaction)
    (mode : DetectionMode) (e1 e2 : Q) :
    scrubTime (analyzeTransactions transactions mode e1) =
    scrubTime (analyzeTransactions transactions mode e2) := rfl

-- ─── Claim C3: `is_suspicious` goes stale under enrichment boosts ───────────

set_option maxRecDepth 100000

/-- C3 (code evaluation at the failing input): after the full pipeline on
`c3Txs`, account `X` — a shell-chain endpoint and fan-in sender that scored
0 — carries the +20 multi-stage boost, ending with `suspicion_score = 20`
while `is_suspicious` is still `false`.  Neither the ring-leadership +10
pass nor the multi-stage +20 pass refreshes `is_suspicious`, so
`is_suspicious ↔ suspicion_score > 0` fails after the full pipeline. -/
theorem multi_stage_boost_leaves_is_suspicious_stale :
    ((analyzeTransactions c3Txs DetectionMode.all 0).accounts.find?
      (fun a => a.account_id = "X")).map
        (fun a => (a.suspicion_score, a.is_suspicious)) = some (20, false) := by
  decide

-- ─── Pointwise account invariants through the pipeline (C2, C10) ────────────

theorem map_pres {P : AccountNode → Prop} {f : AccountNode → AccountNode}
    (hf : ∀ a, P a → P (f a)) {l : List AccountNode} (hl : ∀ a ∈ l, P a) :
    ∀ a' ∈ l.map f, P a' := by
  intro a' h
  rcases List.mem_map.mp h with ⟨a, ha, rfl⟩
  exact hf a (hl a ha)

theorem accinv_of_fields {a b : AccountNode}
    (hs : b.suspicion_score = a.suspicion_score)
    (hp : b.pattern_scores = a.pattern_scores) (h : AccInv a) : AccInv b := by
  unfold AccInv ScoreInv PatInv at *
  rw [hs, hp]
  exact h

theorem accinv_boost {a : AccountNode} {b : AccountNode} (k : Int) (hk : 0 ≤ k)
    (hs : b.suspicion_score = min 100 (a.suspicion_score + k))
    (hp : b.pattern_scores = a.pattern_scores) (h : AccInv a) : AccInv b := by
  obtain ⟨⟨h0, _⟩, hpat⟩ := h
  refine ⟨⟨?_, ?_⟩, ?_⟩
  · rw [hs]; omega
  · rw [hs]; omega
  · unfold PatInv at *
    rw [hp]
    exact hpat

/-- The scorer establishes the combined invariant outright. -/
theorem scoreAccount_inv (ringMap : List (String × List RingId))
    (fanInMap fanOutMap : List (String × (List String × Nat × Nat)))
    (shellNodes : List String) (transactions : List RawTransaction)
    (a : AccountNode) :
    AccInv (scoreAccount ringMap fanInMap fanOutMap shellNodes transactions a) := by
  unfold scoreAccount AccInv ScoreInv PatInv PatternScores.sum
  dsimp only
  split_ifs <;> simp_all

theorem calculateSuspicionScores_inv (accounts : List AccountNode)
    (ringMap : List (String × List RingId))
    (fanInMap fanOutMap : List (String × (List String × Nat × Nat)))
    (shellNodes : List String) (transactions : List RawTransaction) :
    ∀ a ∈ calculateSuspicionScores accounts ringMap fanInMap fanOutMap
      shellNodes transactions, AccInv a := by
  intro a h
  rcases List.mem_map.mp h with ⟨a0, _, rfl⟩
  exact scoreAccount_inv ringMap fanInMap fanOutMap shellNodes transactions a0

theorem applyRingMembership_inv (accounts : List AccountNode)
    (rings : List FraudRing) (h : ∀ a ∈ accounts, AccInv a) :
    ∀ a ∈ applyRingMembership accounts rings, AccInv a := by
  refine foldl_pres _ ?_ rings accounts h
  intro l r hl
  refine foldl_pres _ ?_ r.members l hl
  intro l' m hl'
  refine updAcc_pres ?_ hl'
  intro a ha
  refine accinv_of_fields ?_ ?_ ha <;> dsimp only <;> split <;> rfl

theorem relationship_inv (accounts : List AccountNode)
    (transactions : List RawTransaction) (cycleMembers : List String)
    (h : ∀ a ∈ accounts, AccInv a) :
    ∀ a ∈ adjustScoresUsingRelationshipIntelligence accounts transactions
      cycleMembers, AccInv a := by
  refine map_pres ?_ h
  intro a ha
  split_ifs with h1 h2
  · exact ha
  · refine ⟨⟨?_, ?_⟩, ?_⟩
    · dsimp only; omega
    · dsimp only; omega
    · exact ha.2
  · exact ha

theorem vtcMemberStep_inv (rings : List FraudRing) (ringId : RingId)
    (a : AccountNode) (h : AccInv a) : AccInv (vtcMemberStep rings ringId a) := by
  have hp : PatInv a := h.2
  unfold vtcMemberStep
  split_ifs with h1
  · exact accinv_of_fields rfl rfl h
  · unfold vtcCleanup vtcFilterRing clamp100
    refine ⟨⟨?_, ?_⟩, ?_, ?_, ?_, ?_, ?_⟩ <;> dsimp only
    · omega
    · omega
    · exact hp.1
    · exact hp.2.1
    · exact Or.inl rfl
    · exact hp.2.2.2.1
    · exact hp.2.2.2.2

theorem validateTemporalCycles_inv (accounts : List AccountNode)
    (fraudRings : List FraudRing) (transactions : List RawTransaction)
    (h : ∀ a ∈ accounts, AccInv a) :
    ∀ a ∈ (validateTemporalCycles accounts fraudRings transactions).1, AccInv a := by
  unfold validateTemporalCycles
  refine foldl_pres _ ?_ _ accounts h
  intro l r hl
  split_ifs with hv
  · exact hl
  · unfold vtcProcessRing
    refine foldl_pres _ ?_ r.members l hl
    intro l' m hl'
    exact updAcc_pres (vtcMemberStep_inv fraudRings r.ring_id) hl'

theorem leadership_inv (accounts : List AccountNode)
    (fraudRings : List FraudRing) (transactions : List RawTransaction)
    (h : ∀ a ∈ accounts, AccInv a) :
    ∀ a ∈ analyzeRingLeadership accounts fraudRings transactions, AccInv a := by
  unfold analyzeRingLeadership
  split_ifs with hr
  · exact h
  · refine foldl_pres _ ?_ fraudRings accounts h
    intro l ring hl
    unfold leadershipRingStep
    split_ifs with hm
    · exact hl
    · refine foldl_pres _ ?_ _ l hl
      intro l' p hl'
      refine updAcc_pres ?_ hl'
      intro a ha
      have hc : AccInv (leadershipCentralityUpd p.1
          (rankedOf transactions ring).length p.2.2 a) := by
        unfold leadershipCentralityUpd
        split_ifs with hkeep
        · exact accinv_of_fields rfl rfl ha
        · exact ha
      unfold leadershipAccountUpd
      split_ifs with hrole
      · exact accinv_boost 10 (by omega) rfl rfl hc
      · exact hc

theorem multiStage_inv (accounts : List AccountNode)
    (fraudRings : List FraudRing) (transactions : List RawTransaction)
    (h : ∀ a ∈ accounts, AccInv a) :
    ∀ a ∈ detectMultiStageFlows accounts fraudRings transactions, AccInv a := by
  unfold detectMultiStageFlows
  split_ifs with hr
  · exact h
  · refine foldl_pres _ ?_ _ accounts h
    intro l p hl
    split_ifs with hn
    · exact hl
    · refine updAcc_pres ?_ hl
      intro a ha
      exact accinv_boost 20 (by omega) rfl rfl ha

theorem applyCommunityUpdates_inv (accounts : List AccountNode)
    (membershipMap : List (String × List RingId))
    (mergedRingMap : List (RingId × List RingId))
    (h : ∀ a ∈ accounts, AccInv a) :
    ∀ a ∈ applyCommunityUpdates accounts membershipMap mergedRingMap, AccInv a := by
  unfold applyCommunityUpdates
  refine foldl_pres _ ?_ _ accounts h
  intro l p hl
  refine updAcc_pres ?_ hl
  intro a ha
  exact accinv_of_fields rfl rfl ha

theorem fanInPromotion_inv (accounts : List AccountNode)
    (transactions : List RawTransaction) (cycles : List (List String))
    (shellChains : List (List String))
    (fanOutMap : List (String × (List String × Nat × Nat)))
    (h : ∀ a ∈ accounts, AccInv a) :
    ∀ a ∈ validateFanInTwoPhase accounts transactions cycles shellChains
      fanOutMap, AccInv a := by
  refine map_pres ?_ h
  intro a ha
  split_ifs with h1
  · exact accinv_of_fields rfl rfl ha
  · exact ha

/-- The combined account invariant holds after the full pipeline. -/
theorem pAccountsFinal_inv (transactions : List RawTransaction)
    (mode : DetectionMode) :
    ∀ a ∈ pAccountsFinal transactions mode, AccInv a := by
  intro a ha
  rw [pAccountsFinal, mem_sortBy] at ha
  revert a ha
  refine fanInPromotion_inv _ _ _ _ _ ?_
  refine applyCommunityUpdates_inv _ _ _ ?_
  rw [pAccounts6]
  refine multiStage_inv _ _ _ ?_
  refine leadership_inv _ _ _ ?_
  rw [pVtc]
  refine validateTemporalCycles_inv _ _ _ ?_
  rw [pAccounts3]
  refine relationship_inv _ _ _ ?_
  refine applyRingMembership_inv _ _ ?_
  rw [pScored]
  exact calculateSuspicionScores_inv _ _ _ _ _ _

theorem analyzeTransactions_accounts (transactions : List RawTransaction)
    (mode : DetectionMode) (elapsedMs : Q) :
    (analyzeTransactions transactions mode elapsedMs).accounts =
    pAccountsFinal transactions mode := by
  simp only [analyzeTransactions]

theorem analyzeTransactions_fraudRings (transactions : List RawTransaction)
    (mode : DetectionMode) (elapsedMs : Q) :
    (analyzeTransactions transactions mode elapsedMs).fraudRings =
    pRingsFinal transactions mode := by
  simp only [analyzeTransactions]

/-- C2: for every input, mode and clock reading, every account in the
result of the full pipeline (scoring, temporal cycle validation, ring
leadership boost, multi-stage boost, community detection) has
`0 ≤ suspicion_score ≤ 100`. -/
theorem suspicion_score_bounds (transactions : List RawTransaction)
    (mode : DetectionMode) (elapsedMs : Q) :
    ∀ a ∈ (analyzeTransactions transactions mode elapsedMs).accounts,
      0 ≤ a.suspicion_score ∧ a.suspicion_score ≤ 100 := by
  intro a ha
  rw [analyzeTransactions_accounts] at ha
  exact (pAccountsFinal_inv transactions mode a ha).1

/-- C2 witness: the bounds at a concrete account of a concrete run. -/
theorem suspicion_score_bounds_witness :
    0 ≤ ((analyzeTransactions cyc3Txs DetectionMode.all 0).accounts.get
      ⟨0, by decide⟩).suspicion_score ∧
    ((analyzeTransactions cyc3Txs DetectionMode.all 0).accounts.get
      ⟨0, by decide⟩).suspicion_score ≤ 100 :=
  suspicion_score_bounds cyc3Txs DetectionMode.all 0 _ (List.get_mem _ _ _)

/-- C10: after the full pipeline each `pattern_scores` component is either
zero or exactly its weight — `fan_in ∈ {0, 30}`, `fan_out ∈ {0, 30}`,
`cycle ∈ {0, 40}`, `shell ∈ {0, 35}`, `velocity ∈ {0, 15}` — no matter how
many cycles, windows or chains the account participates in; enrichment
boosts only ever touch `suspicion_score`. -/
theorem pattern_scores_zero_or_weight (transactions : List RawTransaction)
    (mode : DetectionMode) (elapsedMs : Q) :
    ∀ a ∈ (analyzeTransactions transactions mode elapsedMs).accounts,
      (a.pattern_scores.fan_in = 0 ∨ a.pattern_scores.fan_in = 30) ∧
      (a.pattern_scores.fan_out = 0 ∨ a.pattern_scores.fan_out = 30) ∧
      (a.pattern_scores.cycle = 0 ∨ a.pattern_scores.cycle = 40) ∧
      (a.pattern_scores.shell = 0 ∨ a.pattern_scores.shell = 35) ∧
      (a.pattern_scores.velocity = 0 ∨ a.pattern_scores.velocity = 15) := by
  intro a ha
  rw [analyzeTransactions_accounts] at ha
  exact (pAccountsFinal_inv transactions mode a ha).2

/-- C10 witness: the component values at a concrete account of a concrete
run. -/
theorem pattern_scores_zero_or_weight_witness :
    (((analyzeTransactions cyc3Txs DetectionMode.all 0).accounts.get
        ⟨0, by decide⟩).pattern_scores.fan_in = 0 ∨
      ((analyzeTransactions cyc3Txs DetectionMode.all 0).accounts.get
        ⟨0, by decide⟩).pattern_scores.fan_in = 30) ∧
    (((analyzeTransactions cyc3Txs DetectionMode.all 0).accounts.get
        ⟨0, by decide⟩).pattern_scores.fan_out = 0 ∨
      ((analyzeTransactions cyc3Txs DetectionMode.all 0).accounts.get
        ⟨0, by decide⟩).pattern_scores.fan_out = 30) ∧
    (((analyzeTransactions cyc3Txs DetectionMode.all 0).accounts.get
        ⟨0, by decide⟩).pattern_scores.cycle = 0 ∨
      ((analyzeTransactions cyc3Txs DetectionMode.all 0).accounts.get
        ⟨0, by decide⟩).pattern_scores.cycle = 40) ∧
    (((analyzeTransactions cyc3Txs DetectionMode.all 0).accounts.get
        ⟨0, by decide⟩).pattern_scores.shell = 0 ∨
      ((analyzeTransactions cyc3Txs DetectionMode.all 0).accounts.get
        ⟨0, by decide⟩).pattern_scores.shell = 35) ∧
    (((analyzeTransactions cyc3Txs DetectionMode.all 0).accounts.get
        ⟨0, by decide⟩).pattern_scores.velocity = 0 ∨
      ((analyzeTransactions cyc3Txs DetectionMode.all 0).accounts.get
        ⟨0, by decide⟩).pattern_scores.velocity = 15) :=
  pattern_scores_zero_or_weight cyc3Txs DetectionMode.all 0 _ (List.get_mem _ _ _)

-- ─── Claim C4: the temporal cycle invariant ─────────────────────────────────

theorem zip_tail_all_iff {α} (d : α) (p : α → α → Bool) :
    ∀ (l : List α), ((l.zip l.tail).all (fun q => p q.1 q.2) = true ↔
      ∀ i, i + 1 < l.length → p (l.getD i d) (l.getD (i + 1) d) = true)
  | [] => by simp
  | [x] => by simp
  | x :: y :: ys => by
    have ih := zip_tail_all_iff d p (y :: ys)
    rw [List.tail_cons, List.zip_cons_cons, List.all_cons, Bool.and_eq_true]
    rw [List.tail_cons] at ih
    rw [ih]
    constructor
    · rintro ⟨h0, h1⟩ i hi
      match i with
      | 0 => simpa using h0
      | j + 1 =>
        rw [List.getD_cons_succ, List.getD_cons_succ]
        exact h1 j (by simpa [List.length_cons] using hi)
    · intro h
      refine ⟨by simpa using h 0 (by simp), ?_⟩
      intro j hj
      have hstep := h (j + 1) (by simpa [List.length_cons] using hj)
      rwa [List.getD_cons_succ, List.getD_cons_succ] at hstep

theorem validateCycle_eq_true {cycle : List String}
    {transactions : List RawTransaction}
    (h : validateCycle cycle transactions = true) :
    ∃ hops, cycleHopTxs cycle transactions = some hops ∧
      chronoOK hops = true ∧ amountOK hops = true := by
  unfold validateCycle at h
  cases hh : cycleHopTxs cycle transactions with
  | none => rw [hh] at h; simp at h
  | some hops =>
    rw [hh] at h
    simp only [decide_eq_true_eq] at h
    exact ⟨hops, rfl, h.1, h.2⟩

theorem vtc_survivor_valid (accounts : List AccountNode)
    (rings : List FraudRing) (transactions : List RawTransaction) :
    ∀ r ∈ (validateTemporalCycles accounts rings transactions).2,
      r.pattern_type = "cycle" → validateCycle r.members transactions = true := by
  intro r hr hpc
  have hr2 : r ∈ rings.filter
      (fun rr => ¬ (vtcInvalidIds rings transactions).contains rr.ring_id) := hr
  rw [List.mem_filter] at hr2
  by_contra hval
  have hval' : validateCycle r.members transactions = false :=
    Bool.not_eq_true _ ▸ Bool.of_not_eq_true hval
  have hinv : r.ring_id ∈ vtcInvalidIds rings transactions := by
    unfold vtcInvalidIds
    refine List.mem_map.mpr ⟨r, ?_, rfl⟩
    rw [List.mem_filter]
    refine ⟨?_, by simp [hval']⟩
    unfold vtcCycleRings
    rw [List.mem_filter]
    exact ⟨hr2.1, by simp [hpc]⟩
  have hcontains := hr2.2
  simp only [decide_eq_true_eq] at hcontains
  exact hcontains ((contains_iff_mem _ _).mpr hinv)

theorem vtc_invalid_removed (accounts : List AccountNode)
    (rings : List FraudRing) (transactions : List RawTransaction) :
    ∀ r ∈ rings, r.pattern_type = "cycle" →
      validateCycle r.members transactions = false →
      r ∉ (validateTemporalCycles accounts rings transactions).2 := by
  intro r hr hpc hval hmem
  exact absurd hval
    (by simp [vtc_survivor_valid accounts rings transactions r hmem hpc])

theorem q_le_of_not_lt {x y : Q} (h : ¬ (x < y)) : y ≤ x := by
  have h' : ¬ (x.num * y.den < y.num * x.den) := h
  show y.num * x.den ≤ x.num * y.den
  omega

theorem validCycle_index_props {cycle : List String}
    {transactions : List RawTransaction}
    (h : validateCycle cycle transactions = true) :
    ∃ hops, cycleHopTxs cycle transactions = some hops ∧
      ∀ i, i + 1 < hops.length →
        (hops.getD i dTx).timestamp ≤ (hops.getD (i + 1) dTx).timestamp ∧
        (hops.getD i dTx).amount * Q.mkRaw 1 2 ≤ (hops.getD (i + 1) dTx).amount := by
  obtain ⟨hops, hh, hc, ha⟩ := validateCycle_eq_true h
  refine ⟨hops, hh, ?_⟩
  intro i hi
  constructor
  · have hcc := (zip_tail_all_iff dTx
      (fun a b => decide (a.timestamp ≤ b.timestamp)) hops).mp hc i hi
    simpa using hcc
  · have haa := (zip_tail_all_iff dTx
      (fun a b => decide (¬ (b.amount < a.amount * (1/2)))) hops).mp ha i hi
    simp only [decide_eq_true_eq] at haa
    exact q_le_of_not_lt haa

/-- C4: after temporal validation, every surviving `cycle` ring's chosen
per-hop earliest transactions (hop `i` goes from `members[i]` to
`members[(i+1) mod k]`) are chronologically non-decreasing in hop order
and each hop's amount is at least half the previous hop's amount; and
every cycle ring whose chosen hop transactions violate either rule is
removed from the ring list. -/
theorem temporal_cycle_invariant (accounts : List AccountNode)
    (rings : List FraudRing) (transactions : List RawTransaction) :
    (∀ r ∈ (validateTemporalCycles accounts rings transactions).2,
        r.pattern_type = "cycle" →
        ∃ hops, cycleHopTxs r.members transactions = some hops ∧
          ∀ i, i + 1 < hops.length →
            (hops.getD i dTx).timestamp ≤ (hops.getD (i + 1) dTx).timestamp ∧
            (hops.getD i dTx).amount * Q.mkRaw 1 2 ≤ (hops.getD (i + 1) dTx).amount) ∧
    (∀ r ∈ rings, r.pattern_type = "cycle" →
      ∀ hops, cycleHopTxs r.members transactions = some hops →
        (¬ ∀ i, i + 1 < hops.length →
            (hops.getD i dTx).timestamp ≤ (hops.getD (i + 1) dTx).timestamp ∧
            (hops.getD i dTx).amount * Q.mkRaw 1 2 ≤ (hops.getD (i + 1) dTx).amount) →
        r ∉ (validateTemporalCycles accounts rings transactions).2) := by
  constructor
  · intro r hr hpc
    exact validCycle_index_props
      (vtc_survivor_valid accounts rings transactions r hr hpc)
  · intro r _ hpc hops hh hbad hmem
    obtain ⟨hops', hh', hprops⟩ := validCycle_index_props
      (vtc_survivor_valid accounts rings transactions r hmem hpc)
    rw [hh] at hh'
    cases hh'
    exact hbad hprops

/-- C4 witness: on the consistent 3-cycle input the ring survives with the
invariant, and on the time-broken input the ring is removed. -/
theorem temporal_cycle_invariant_witness :
    (∃ hops, cycleHopTxs c4Ring.members cyc3Txs = some hops ∧
      ∀ i, i + 1 < hops.length →
        (hops.getD i dTx).timestamp ≤ (hops.getD (i + 1) dTx).timestamp ∧
        (hops.getD i dTx).amount * Q.mkRaw 1 2 ≤ (hops.getD (i + 1) dTx).amount) ∧
    c4Ring ∉ (validateTemporalCycles [] [c4Ring] brokTxs).2 :=
  ⟨(temporal_cycle_invariant [] [c4Ring] cyc3Txs).1 c4Ring (by decide) rfl,
   (temporal_cycle_invariant [] [c4Ring] brokTxs).2 c4Ring (by decide) rfl
     [mkTx 1 "A" "B" 5000 t0, mkTx 2 "B" "C" 4800 (t0 + 2 * 3600000),
      mkTx 3 "C" "A" 4600 (t0 - 10 * 3600000)]
     (by decide)
     (fun h => absurd ((h 1 (by decide)).1) (by decide))⟩

-- ─── Claim C5: cleanup of members of removed cycle rings ────────────────────

theorem vtcMemberStep_id (rings : List FraudRing) (ringId : RingId)
    (a : AccountNode) :
    (vtcMemberStep rings ringId a).account_id = a.account_id := by
  unfold vtcMemberStep vtcCleanup vtcFilterRing
  split_ifs <;> rfl

theorem vtcMemberStep_ringIds (rings : List FraudRing) (ringId : RingId)
    (a : AccountNode) :
    (vtcMemberStep rings ringId a).ring_ids =
    a.ring_ids.filter (fun rid => rid ≠ ringId) := by
  unfold vtcMemberStep vtcCleanup vtcFilterRing
  split_ifs <;> rfl

theorem foldl_updAcc_map (f : AccountNode → AccountNode)
    (hf : ∀ a, (f a).account_id = a.account_id) :
    ∀ (ms : List String), ms.Nodup → ∀ (l : List AccountNode),
      ms.foldl (fun acc m => updAcc m f acc) l =
      l.map (fun a => if a.account_id ∈ ms then f a else a) := by
  intro ms
  induction ms with
  | nil =>
    intro _ l
    simp
  | cons m ms ih =>
    intro hnd l
    rw [List.nodup_cons] at hnd
    rw [List.foldl_cons, ih hnd.2, updAcc, List.map_map]
    apply List.map_congr_left
    intro a _
    by_cases hm : a.account_id = m
    · have h1 : (f a).account_id = m := by rw [hf a, hm]
      have h2 : (f a).account_id ∉ ms := by rw [h1]; exact hnd.1
      simp [hm, Function.comp, h2]
    · by_cases hms : a.account_id ∈ ms <;>
        simp [hm, Function.comp, hms, List.mem_cons]

theorem vtc_fold_map (rings : List FraudRing)
    (transactions : List RawTransaction) :
    ∀ (rs : List FraudRing), (∀ r ∈ rs, r.members.Nodup) →
    ∀ (l : List AccountNode),
      rs.foldl
        (fun acc r =>
          if validateCycle r.members transactions then acc
          else vtcProcessRing rings acc r)
        l =
      l.map (vtcAccountFold rings transactions rs) := by
  intro rs
  induction rs with
  | nil =>
    intro _ l
    symm
    calc List.map (vtcAccountFold rings transactions []) l
        = List.map (fun a => a) l := List.map_congr_left (fun a _ => rfl)
      _ = l := List.map_id' l
  | cons r rs ih =>
    intro hnd l
    rw [List.foldl_cons]
    by_cases hv : validateCycle r.members transactions = true
    · rw [if_pos hv, ih (fun x hx => hnd x (List.mem_cons_of_mem r hx)) l]
      apply List.map_congr_left
      intro a _
      unfold vtcAccountFold
      rw [List.foldl_cons, if_pos hv]
    · rw [if_neg hv]
      have hpr : vtcProcessRing rings l r =
          l.map (fun a => if a.account_id ∈ r.members then
            vtcMemberStep rings r.ring_id a else a) :=
        foldl_updAcc_map _ (vtcMemberStep_id rings r.ring_id) r.members
          (hnd r (List.mem_cons_self r rs)) l
      rw [hpr, ih (fun x hx => hnd x (List.mem_cons_of_mem r hx)) _, List.map_map]
      apply List.map_congr_left
      intro a _
      unfold vtcAccountFold
      rw [List.foldl_cons, if_neg hv]
      rfl

theorem vtcAccountFold_id (rings : List FraudRing)
    (transactions : List RawTransaction) :
    ∀ (rs : List FraudRing) (a : AccountNode),
      (vtcAccountFold rings transactions rs a).account_id = a.account_id := by
  intro rs
  induction rs with
  | nil => intro a; rfl
  | cons r rs ih =>
    intro a
    unfold vtcAccountFold
    rw [List.foldl_cons]
    split_ifs with h1 h2
    · exact ih a
    · rw [show List.foldl _ (vtcMemberStep rings r.ring_id a) rs =
        vtcAccountFold rings transactions rs (vtcMemberStep rings r.ring_id a)
        from rfl, ih _, vtcMemberStep_id]
    · exact ih a

theorem vtcAccountFold_ringIds_sub (rings : List FraudRing)
    (transactions : List RawTransaction) :
    ∀ (rs : List FraudRing) (a : AccountNode) (rid : RingId),
      rid ∈ (vtcAccountFold rings transactions rs a).ring_ids →
      rid ∈ a.ring_ids := by
  intro rs
  induction rs with
  | nil => intro a rid h; exact h
  | cons r rs ih =>
    intro a rid h
    unfold vtcAccountFold at h
    rw [List.foldl_cons] at h
    split_ifs at h with h1 h2
    · exact ih a rid h
    · have h3 := ih _ rid h
      rw [vtcMemberStep_ringIds] at h3
      exact (List.mem_filter.mp h3).1
    · exact ih a rid h

theorem vtcAccountFold_removes (rings : List FraudRing)
    (transactions : List RawTransaction) :
    ∀ (rs : List FraudRing) (a : AccountNode) (r : FraudRing), r ∈ rs →
      validateCycle r.members transactions = false →
      a.account_id ∈ r.members →
      r.ring_id ∉ (vtcAccountFold rings transactions rs a).ring_ids := by
  intro rs
  induction rs with
  | nil => intro a r hr; exact absurd hr (List.not_mem_nil r)
  | cons r0 rs ih =>
    intro a r hr hval hm
    rcases List.mem_cons.mp hr with rfl | hr'
    · unfold vtcAccountFold
      rw [List.foldl_cons, if_neg (by simp [hval]), if_pos hm]
      intro hmem
      have hsub := vtcAccountFold_ringIds_sub rings transactions rs _ _ hmem
      rw [vtcMemberStep_ringIds] at hsub
      have := (List.mem_filter.mp hsub).2
      simp at this
    · unfold vtcAccountFold
      rw [List.foldl_cons]
      split_ifs with h1 h2
      · exact ih a r hr' hval hm
      · have hid := vtcMemberStep_id rings r0.ring_id a
        exact ih _ r hr' hval (by rwa [hid])
      · exact ih a r hr' hval hm

theorem cleanProps_vtcCleanup (b : AccountNode) : CleanProps (vtcCleanup b) := by
  unfold CleanProps vtcCleanup
  refine ⟨rfl, ?_, rfl, rfl⟩
  intro hmem
  have := (List.mem_filter.mp hmem).2
  simp at this

theorem cleanProps_vtcFilterRing (ringId : RingId) (b : AccountNode)
    (h : CleanProps b) : CleanProps (vtcFilterRing ringId b) := h

theorem cleanProps_vtcMemberStep (rings : List FraudRing) (ringId : RingId)
    (b : AccountNode) (h : CleanProps b) :
    CleanProps (vtcMemberStep rings ringId b) := by
  unfold vtcMemberStep
  split_ifs with h1
  · exact cleanProps_vtcFilterRing ringId b h
  · exact cleanProps_vtcCleanup _

theorem vtcAccountFold_pres_clean (rings : List FraudRing)
    (transactions : List RawTransaction) :
    ∀ (rs : List FraudRing) (a : AccountNode), CleanProps a →
      CleanProps (vtcAccountFold rings transactions rs a) := by
  intro rs
  induction rs with
  | nil => intro a h; exact h
  | cons r rs ih =>
    intro a h
    unfold vtcAccountFold
    rw [List.foldl_cons]
    split_ifs with h1 h2
    · exact ih a h
    · exact ih _ (cleanProps_vtcMemberStep rings r.ring_id a h)
    · exact ih a h

theorem vtcAccountFold_cleanup (rings : List FraudRing)
    (transactions : List RawTransaction) (aid : String)
    (hnoValid : ∀ fr ∈ rings, fr.pattern_type = "cycle" →
      validateCycle fr.members transactions = true → aid ∉ fr.members) :
    ∀ (rs : List FraudRing) (a : AccountNode),
      a.account_id = aid →
      (∀ rid ∈ a.ring_ids, ∀ fr ∈ rings, fr.ring_id = rid →
        fr.pattern_type = "cycle" →
        aid ∈ fr.members ∧
          (validateCycle fr.members transactions = false → fr ∈ rs)) →
      (∃ r ∈ rs, validateCycle r.members transactions = false ∧
        aid ∈ r.members) →
      CleanProps (vtcAccountFold rings transactions rs a) := by
  intro rs
  induction rs with
  | nil =>
    rintro a _ _ ⟨r, hr, _⟩
    exact absurd hr (List.not_mem_nil r)
  | cons r rs ih =>
    rintro a ha hinv htrig
    unfold vtcAccountFold
    rw [List.foldl_cons]
    by_cases hv : validateCycle r.members transactions = true
    · rw [if_pos hv]
      refine ih a ha ?_ ?_
      · intro rid hrid fr hfr hfrid hfrpc
        obtain ⟨hm, hpend⟩ := hinv rid hrid fr hfr hfrid hfrpc
        refine ⟨hm, fun hbad => ?_⟩
        rcases List.mem_cons.mp (hpend hbad) with rfl | h'
        · rw [hv] at hbad; exact Bool.noConfusion hbad
        · exact h'
      · obtain ⟨r', hr', hval', hm'⟩ := htrig
        rcases List.mem_cons.mp hr' with rfl | h'
        · rw [hv] at hval'; exact Bool.noConfusion hval'
        · exact ⟨r', h', hval', hm'⟩
    · rw [if_neg hv]
      by_cases hm : a.account_id ∈ r.members
      · rw [if_pos hm]
        by_cases hstill : stillInCycleB rings
            (vtcFilterRing r.ring_id a).ring_ids = true
        · have hstep : vtcMemberStep rings r.ring_id a =
              vtcFilterRing r.ring_id a := by
            unfold vtcMemberStep
            rw [if_pos hstill]
          rw [hstep]
          obtain ⟨rid, hrid, hb⟩ := List.any_eq_true.mp hstill
          have hrid' : rid ∈ a.ring_ids.filter (fun x => x ≠ r.ring_id) := hrid
          rw [List.mem_filter] at hrid'
          obtain ⟨hridm, hridne⟩ := hrid'
          have hridne' : rid ≠ r.ring_id := by simpa using hridne
          cases hfind : rings.find? (fun fr => fr.ring_id = rid) with
          | none => rw [hfind] at hb; exact Bool.noConfusion hb
          | some fr0 =>
            rw [hfind] at hb
            have hfr0pc : fr0.pattern_type = "cycle" := by simpa using hb
            have hfr0mem : fr0 ∈ rings := List.mem_of_find?_eq_some hfind
            have hfr0id : fr0.ring_id = rid := by
              simpa using List.find?_some hfind
            obtain ⟨hfr0m, hfr0pend⟩ := hinv rid hridm fr0 hfr0mem hfr0id hfr0pc
            by_cases hfr0v : validateCycle fr0.members transactions = true
            · exact absurd hfr0m (hnoValid fr0 hfr0mem hfr0pc hfr0v)
            · have hfr0v' : validateCycle fr0.members transactions = false := by
                simpa using hfr0v
              have hfr0in : fr0 ∈ rs := by
                rcases List.mem_cons.mp (hfr0pend hfr0v') with rfl | h'
                · exact absurd hfr0id (by simpa using hridne'.symm)
                · exact h'
              refine ih (vtcFilterRing r.ring_id a) ha ?_
                ⟨fr0, hfr0in, hfr0v', hfr0m⟩
              intro rid2 hrid2 fr hfr hfrid hfrpc
              have hrid2' : rid2 ∈ a.ring_ids.filter (fun x => x ≠ r.ring_id) :=
                hrid2
              rw [List.mem_filter] at hrid2'
              obtain ⟨hrid2m, hrid2ne⟩ := hrid2'
              obtain ⟨hmm, hpend⟩ := hinv rid2 hrid2m fr hfr hfrid hfrpc
              refine ⟨hmm, fun hbad => ?_⟩
              rcases List.mem_cons.mp (hpend hbad) with rfl | h'
              · exact absurd hfrid.symm (by simpa using hrid2ne)
              · exact h'
        · have hstep : vtcMemberStep rings r.ring_id a =
              vtcCleanup (vtcFilterRing r.ring_id a) := by
            unfold vtcMemberStep
            rw [if_neg hstill]
          rw [hstep]
          exact vtcAccountFold_pres_clean rings transactions rs _
            (cleanProps_vtcCleanup _)
      · rw [if_neg hm]
        refine ih a ha ?_ ?_
        · intro rid hrid fr hfr hfrid hfrpc
          obtain ⟨hmm, hpend⟩ := hinv rid hrid fr hfr hfrid hfrpc
          refine ⟨hmm, fun hbad => ?_⟩
          rcases List.mem_cons.mp (hpend hbad) with rfl | h'
          · exact absurd (by rw [ha]; exact hmm) hm
          · exact h'
        · obtain ⟨r', hr', hval', hm'⟩ := htrig
          rcases List.mem_cons.mp hr' with rfl | h'
          · exact absurd (by rw [ha]; exact hm') hm
          · exact ⟨r', h', hval', hm'⟩

/-- C5: when temporal validation removes a cycle ring, no member account
retains that ring's id in `ring_ids`; and every member that no longer
belongs to any surviving `cycle` ring has `pattern_scores.cycle = 0`, no
`cycle` tag in `detected_patterns`, `suspicion_score` equal to the clamped
sum of its pattern scores, and `is_suspicious` recomputed from that score.
The hypotheses state the pipeline's bookkeeping invariants at the call
site: ring ids are distinct, cycle-ring member lists are duplicate-free
(a DFS cycle visits a node at most once; fan rings may repeat a member
and need no such hypothesis), and an account holds a cycle ring's id
exactly when it is one of its members. -/
theorem cycle_removal_cleanup (accounts : List AccountNode)
    (rings : List FraudRing) (transactions : List RawTransaction)
    (hid : (rings.map (fun r => r.ring_id)).Nodup)
    (hnd : ∀ r ∈ rings, r.pattern_type = "cycle" → r.members.Nodup)
    (hcons : ∀ a ∈ accounts, ∀ r ∈ rings, r.pattern_type = "cycle" →
      (r.ring_id ∈ a.ring_ids ↔ a.account_id ∈ r.members)) :
    ∀ r ∈ rings, r.pattern_type = "cycle" →
      validateCycle r.members transactions = false →
      r ∉ (validateTemporalCycles accounts rings transactions).2 ∧
      ∀ a' ∈ (validateTemporalCycles accounts rings transactions).1,
        a'.account_id ∈ r.members →
        r.ring_id ∉ a'.ring_ids ∧
        ((∀ rc ∈ (validateTemporalCycles accounts rings transactions).2,
            rc.pattern_type = "cycle" → a'.account_id ∉ rc.members) →
          a'.pattern_scores.cycle = 0 ∧
          "cycle" ∉ a'.detected_patterns ∧
          a'.suspicion_score = clamp100 a'.pattern_scores.sum ∧
          a'.is_suspicious = decide (0 < a'.suspicion_score)) := by
  intro r hr hpc hval
  have hrc : r ∈ vtcCycleRings rings :=
    List.mem_filter.mpr ⟨hr, by simp [hpc]⟩
  have hndc : ∀ x ∈ vtcCycleRings rings, x.members.Nodup := by
    intro x hx
    have h := List.mem_filter.mp hx
    exact hnd x h.1 (by simpa using h.2)
  refine ⟨vtc_invalid_removed accounts rings transactions r hr hpc hval, ?_⟩
  intro a' ha' hm
  have hmap := vtc_fold_map rings transactions (vtcCycleRings rings) hndc accounts
  have ha0 : a' ∈ accounts.map
      (vtcAccountFold rings transactions (vtcCycleRings rings)) := by
    rw [← hmap]
    exact ha'
  rcases List.mem_map.mp ha0 with ⟨a0, ha0mem, rfl⟩
  have hfid := vtcAccountFold_id rings transactions (vtcCycleRings rings) a0
  have hm0 : a0.account_id ∈ r.members := by rw [← hfid]; exact hm
  constructor
  · exact vtcAccountFold_removes rings transactions (vtcCycleRings rings) a0 r
      hrc hval hm0
  · intro hsurv
    have hclean : CleanProps
        (vtcAccountFold rings transactions (vtcCycleRings rings) a0) := by
      refine vtcAccountFold_cleanup rings transactions a0.account_id ?_
        (vtcCycleRings rings) a0 rfl ?_ ⟨r, hrc, hval, hm0⟩
      · intro fr hfr hfrpc hfrv
        have hfrsurv : fr ∈ (validateTemporalCycles accounts rings transactions).2 := by
          show fr ∈ rings.filter
            (fun rr => ¬ (vtcInvalidIds rings transactions).contains rr.ring_id)
          rw [List.mem_filter]
          refine ⟨hfr, ?_⟩
          simp only [decide_eq_true_eq]
          intro hcont
          have hmemid := (contains_iff_mem _ _).mp hcont
          unfold vtcInvalidIds at hmemid
          rcases List.mem_map.mp hmemid with ⟨g, hg, hgid⟩
          rw [List.mem_filter] at hg
          have hgrings : g ∈ rings := (List.mem_filter.mp hg.1).1
          have hgfr : g = fr := List.inj_on_of_nodup_map hid hgrings hfr hgid
          have hginv := hg.2
          rw [hgfr, hfrv] at hginv
          simp at hginv
        have := hsurv fr hfrsurv hfrpc
        rwa [hfid] at this
      · intro rid hrid fr hfr hfrid hfrpc
        constructor
        · exact (hcons a0 ha0mem fr hfr hfrpc).mp (hfrid ▸ hrid)
        · intro hfrv
          exact List.mem_filter.mpr ⟨hfr, by simp [hfrpc]⟩
    exact ⟨hclean.1, hclean.2.1, hclean.2.2.1, hclean.2.2.2⟩

/-- C5 witness: on the time-broken cycle the ring is removed and all three
members are cleaned up. -/
theorem cycle_removal_cleanup_witness :
    c4Ring ∉ (validateTemporalCycles c5Accounts [c4Ring] brokTxs).2 ∧
    ∀ a' ∈ (validateTemporalCycles c5Accounts [c4Ring] brokTxs).1,
      a'.account_id ∈ c4Ring.members →
      c4Ring.ring_id ∉ a'.ring_ids ∧
      ((∀ rc ∈ (validateTemporalCycles c5Accounts [c4Ring] brokTxs).2,
          rc.pattern_type = "cycle" → a'.account_id ∉ rc.members) →
        a'.pattern_scores.cycle = 0 ∧
        "cycle" ∉ a'.detected_patterns ∧
        a'.suspicion_score = clamp100 a'.pattern_scores.sum ∧
        a'.is_suspicious = decide (0 < a'.suspicion_score)) :=
  cycle_removal_cleanup c5Accounts [c4Ring] brokTxs (by decide) (by decide)
    (by decide) c4Ring (by decide) rfl (by decide)

-- ─── Claim C6: cycle ring members and total value ───────────────────────────

theorem q_toRat_zero : (0 : Q).toRat = 0 := by
  show ((0 : Int) : Rat) / ((1 : Nat) : Rat) = 0
  norm_num

theorem q_toRat_add {a b : Q} (ha : a.den ≠ 0) (hb : b.den ≠ 0) :
    (a + b).toRat = a.toRat + b.toRat := by
  show ((a.num * b.den + b.num * a.den : Int) : Rat) /
    ((a.den * b.den : Nat) : Rat) = _
  unfold Q.toRat
  have ha' : (a.den : Rat) ≠ 0 := by exact_mod_cast ha
  have hb' : (b.den : Rat) ≠ 0 := by exact_mod_cast hb
  rw [div_add_div _ _ ha' hb']
  push_cast
  ring_nf

theorem q_add_den {a b : Q} (ha : a.den ≠ 0) (hb : b.den ≠ 0) :
    (a + b).den ≠ 0 := by
  show a.den * b.den ≠ 0
  exact Nat.mul_ne_zero ha hb

theorem txfold_toRat :
    ∀ (txs : List RawTransaction) (s : Q),
      (∀ tx ∈ txs, tx.amount.den ≠ 0) → s.den ≠ 0 →
      (txs.foldl (fun acc tx => acc + tx.amount) s).den ≠ 0 ∧
      (txs.foldl (fun acc tx => acc + tx.amount) s).toRat =
        s.toRat + (txs.map (fun tx => tx.amount.toRat)).sum := by
  intro txs
  induction txs with
  | nil =>
    intro s _ hs
    exact ⟨hs, by simp⟩
  | cons tx txs ih =>
    intro s hden hs
    have htx : tx.amount.den ≠ 0 := hden tx (List.mem_cons_self tx txs)
    have hden' : ∀ u ∈ txs, u.amount.den ≠ 0 :=
      fun u hu => hden u (List.mem_cons_of_mem tx hu)
    have hs' : (s + tx.amount).den ≠ 0 := q_add_den hs htx
    obtain ⟨hd, he⟩ := ih (s + tx.amount) hden' hs'
    refine ⟨hd, ?_⟩
    rw [List.foldl_cons] at *
    rw [he, q_toRat_add hs htx, List.map_cons, List.sum_cons]
    ring

theorem txAmountSum_toRat (txs : List RawTransaction)
    (hden : ∀ tx ∈ txs, tx.amount.den ≠ 0) :
    (txAmountSum txs).toRat = (txs.map (fun tx => tx.amount.toRat)).sum := by
  have h := (txfold_toRat txs 0 hden (by decide)).2
  unfold txAmountSum
  rw [h, q_toRat_zero, zero_add]

theorem cycleTxs_map_sum (cycle : List String)
    (transactions : List RawTransaction) :
    ∀ (is : List Nat) (acc : List RawTransaction),
      ((is.foldl (fun acc i => acc ++ hopMatching cycle i transactions) acc).map
        (fun tx => tx.amount.toRat)).sum =
      (acc.map (fun tx => tx.amount.toRat)).sum +
      (is.map (fun i => ((hopMatching cycle i transactions).map
        (fun tx => tx.amount.toRat)).sum)).sum := by
  intro is
  induction is with
  | nil => intro acc; simp
  | cons i is ih =>
    intro acc
    rw [List.foldl_cons, ih, List.map_append, List.sum_append, List.map_cons,
      List.sum_cons]
    ring

theorem hopMatching_den (cycle : List String)
    (transactions : List RawTransaction)
    (hden : ∀ tx ∈ transactions, tx.amount.den ≠ 0) :
    ∀ i, ∀ tx ∈ hopMatching cycle i transactions, tx.amount.den ≠ 0 :=
  fun _ tx htx => hden tx (List.mem_filter.mp htx).1

theorem cycleTxs_den (cycle : List String)
    (transactions : List RawTransaction)
    (hden : ∀ tx ∈ transactions, tx.amount.den ≠ 0) :
    ∀ tx ∈ cycleTxs cycle transactions, tx.amount.den ≠ 0 := by
  unfold cycleTxs
  have : ∀ (is : List Nat) (acc : List RawTransaction),
      (∀ tx ∈ acc, tx.amount.den ≠ 0) →
      ∀ tx ∈ is.foldl (fun acc i => acc ++ hopMatching cycle i transactions) acc,
        tx.amount.den ≠ 0 := by
    intro is
    induction is with
    | nil => intro acc hacc; exact hacc
    | cons i is ih =>
      intro acc hacc
      refine ih _ ?_
      intro tx htx
      rcases List.mem_append.mp htx with h | h
      · exact hacc tx h
      · exact hopMatching_den cycle transactions hden i tx h
  exact this _ [] (by intro tx htx; exact absurd htx (List.not_mem_nil tx))

/-- The code's cycle ring value agrees, numerically, with the sum over
hops of ALL transaction amounts on each hop edge. -/
theorem cycle_total_value_allhops (cycle : List String)
    (transactions : List RawTransaction)
    (hden : ∀ tx ∈ transactions, tx.amount.den ≠ 0) :
    (txAmountSum (cycleTxs cycle transactions)).toRat =
    specAllHopTotal cycle transactions := by
  rw [txAmountSum_toRat _ (cycleTxs_den cycle transactions hden)]
  unfold cycleTxs specAllHopTotal
  rw [cycleTxs_map_sum cycle transactions (List.range cycle.length) []]
  simp

/-- C6 (counterexample): on `dupTxs` the cycle ring `A → B → C → A` built by
the ring builder has `total_value` 400 — the sum of ALL four matching
transactions over the cycle's hops — while the first-transaction-per-hop
reading of the spec gives 300, so the two disagree. -/
theorem cycle_ring_value_not_first_hop :
    ∃ r ∈ pRings0 dupTxs DetectionMode.all,
      r.pattern_type = "cycle" ∧ r.members = ["A", "B", "C"] ∧
      r.total_value = Q.ofNat 400 ∧
      specFirstHopTotal r.members dupTxs = Q.ofNat 300 ∧
      ¬ r.total_value = specFirstHopTotal r.members dupTxs := by
  decide

/-- C6 (amended): for every retained cycle, the ring builder emits a `cycle`
ring whose members are the cycle traversal order, whose member count is the
cycle length, and whose total value is the sum over the cycle's hops of the
amounts of ALL transactions on each hop edge (not just the first one). -/
theorem cycle_ring_members_and_value (transactions : List RawTransaction)
    (mode : DetectionMode) (c : List String)
    (hc : c ∈ (pCyclesRes transactions mode).1)
    (hden : ∀ tx ∈ transactions, tx.amount.den ≠ 0) :
    ∃ r ∈ pRings0 transactions mode,
      r.pattern_type = "cycle" ∧ r.members = c ∧ r.member_count = c.length ∧
      r.total_value.toRat = specAllHopTotal c transactions := by
  obtain ⟨i, hi, hgi⟩ := List.mem_iff_getElem.mp hc
  have henum : (i, c) ∈ (pCyclesRes transactions mode).1.enum :=
    List.mem_enum_iff_getElem?.mpr (by rw [List.getElem?_eq_getElem hi, hgi])
  refine ⟨{ ring_id := RingId.ring (i + 1)
            pattern_type := "cycle"
            members := c
            member_count := c.length
            risk_score := ringRisk (pScored transactions mode) c
            total_value := txAmountSum (cycleTxs c transactions)
            explanation := ["Cycle of accounts"] }, ?_, rfl, rfl, rfl,
    cycle_total_value_allhops c transactions hden⟩
  simp only [pRings0, buildFraudRings]
  rw [mem_sortBy]
  refine List.mem_append.mpr (Or.inl (List.mem_append.mpr (Or.inl
    (List.mem_append.mpr (Or.inl ?_)))))
  exact List.mem_map.mpr ⟨(i, c), henum, rfl⟩

/-- C6 witness: the amended statement at `dupTxs`, whose only cycle is
`["A", "B", "C"]`. -/
theorem cycle_ring_members_and_value_witness :
    ∃ r ∈ pRings0 dupTxs DetectionMode.all,
      r.pattern_type = "cycle" ∧ r.members = ["A", "B", "C"] ∧
      r.member_count = (["A", "B", "C"] : List String).length ∧
      r.total_value.toRat = specAllHopTotal ["A", "B", "C"] dupTxs :=
  cycle_ring_members_and_value dupTxs DetectionMode.all ["A", "B", "C"]
    (by decide) (by decide)

theorem dropWhile_head_false {α} (p : α → Bool) (l : List α) (x : α)
    (xs : List α) (h : l.dropWhile p = x :: xs) : p x = false := by
  induction l with
  | nil => simp [List.dropWhile] at h
  | cons y ys ih =>
    rw [List.dropWhile_cons] at h
    by_cases hy : p y = true
    · rw [if_pos hy] at h; exact ih h
    · rw [if_neg hy] at h
      injection h with h1 _
      rw [← h1]
      exact Bool.eq_false_iff.mpr hy

theorem fanScan_spec (proj : RawTransaction → String)
    (P : RawTransaction → Prop) :
    ∀ (l window : List RawTransaction) (ids : List String) (lo hi : Nat),
      (∀ x ∈ window, P x) → (∀ x ∈ l, P x) →
      (window ++ l).Pairwise (fun a b => a.timestamp ≤ b.timestamp) →
      fanScan proj window l = some (ids, lo, hi) →
      ∃ win : List RawTransaction,
        (∀ x ∈ win, P x ∧ lo ≤ x.timestamp ∧ x.timestamp ≤ hi) ∧
        hi - lo ≤ window72h ∧
        ids = sOfList (win.map proj) ∧ 10 ≤ ids.length := by
  intro l
  induction l with
  | nil =>
    intro window ids lo hi _ _ _ h
    simp [fanScan] at h
  | cons t rest ih =>
    intro window ids lo hi hw hl hp h
    simp only [fanScan] at h
    have hpFull := hp
    rw [List.pairwise_append] at hp
    have hsub : (List.dropWhile
        (fun x => decide (window72h < t.timestamp - x.timestamp))
        window).Sublist window := List.dropWhile_sublist _
    have hwin : ∀ x ∈ List.dropWhile
        (fun x => decide (window72h < t.timestamp - x.timestamp)) window ++ [t],
        P x := by
      intro x hx
      rcases List.mem_append.mp hx with hx | hx
      · exact hw x (hsub.subset hx)
      · rw [List.mem_singleton.mp hx]
        exact hl t (List.mem_cons_self t rest)
    by_cases htrig : 10 ≤ (sOfList ((List.dropWhile
        (fun x => decide (window72h < t.timestamp - x.timestamp)) window
        ++ [t]).map proj)).length
    · rw [if_pos htrig] at h
      simp only [Option.some.injEq, Prod.mk.injEq] at h
      obtain ⟨hids, hlo, hhi⟩ := h
      have hles : ∀ x ∈ List.dropWhile
          (fun x => decide (window72h < t.timestamp - x.timestamp)) window,
          x.timestamp ≤ t.timestamp :=
        fun x hx => hp.2.2 x (hsub.subset hx) t (List.mem_cons_self t rest)
      have hkpw : (List.dropWhile
          (fun x => decide (window72h < t.timestamp - x.timestamp))
          window).Pairwise (fun a b => a.timestamp ≤ b.timestamp) :=
        List.Pairwise.sublist hsub hp.1
      rcases hkc : List.dropWhile
          (fun x => decide (window72h < t.timestamp - x.timestamp)) window
        with _ | ⟨k0, ks⟩
      · rw [hkc] at hids hlo hwin htrig
        simp only [List.nil_append, List.head?_cons, Option.map_some',
          Option.getD_some] at hlo
        refine ⟨[t], ?_, ?_, ?_, ?_⟩
        · intro x hx
          rw [List.mem_singleton.mp hx]
          exact ⟨hl t (List.mem_cons_self t rest), hlo ▸ Nat.le_refl _,
            hhi ▸ Nat.le_refl _⟩
        · rw [← hhi, ← hlo, Nat.sub_self]
          exact Nat.zero_le _
        · rw [← hids]
          simp
        · rw [← hids]
          simpa using htrig
      · rw [hkc] at hids hlo hwin htrig hles hkpw
        simp only [List.cons_append, List.head?_cons, Option.map_some',
          Option.getD_some] at hlo
        have hk0false : decide (window72h < t.timestamp - k0.timestamp) = false :=
          dropWhile_head_false _ window k0 ks hkc
        have hspan : t.timestamp - k0.timestamp ≤ window72h :=
          Nat.not_lt.mp (of_decide_eq_false hk0false)
        have hk0le : ∀ b ∈ ks, k0.timestamp ≤ b.timestamp :=
          (List.pairwise_cons.mp hkpw).1
        refine ⟨k0 :: ks ++ [t], ?_, ?_, ?_, ?_⟩
        · intro x hx
          refine ⟨hwin x (by simpa using hx), ?_, ?_⟩
          · rcases List.mem_cons.mp hx with rfl | hx'
            · exact hlo ▸ Nat.le_refl _
            · rcases List.mem_append.mp hx' with hx'' | hx''
              · exact hlo ▸ hk0le x hx''
              · rw [List.mem_singleton.mp hx'']
                exact hlo ▸ hles k0 (List.mem_cons_self k0 ks)
          · rcases List.mem_cons.mp hx with rfl | hx'
            · exact hhi ▸ hles _ (List.mem_cons_self _ _)
            · rcases List.mem_append.mp hx' with hx'' | hx''
              · exact hhi ▸ hles x (List.mem_cons_of_mem _ hx'')
              · rw [List.mem_singleton.mp hx'']
                exact hhi ▸ Nat.le_refl _
        · rw [← hhi, ← hlo]
          exact hspan
        · rw [← hids]
        · rw [← hids]
          simpa using htrig
    · rw [if_neg htrig] at h
      refine ih (List.dropWhile
          (fun x => decide (window72h < t.timestamp - x.timestamp)) window
          ++ [t]) ids lo hi hwin
        (fun x hx => hl x (List.mem_cons_of_mem t hx)) ?_ h
      have hsub2 : ((List.dropWhile
          (fun x => decide (window72h < t.timestamp - x.timestamp)) window
          ++ [t]) ++ rest).Sublist (window ++ t :: rest) := by
        rw [List.append_assoc]
        exact hsub.append (List.Sublist.refl (t :: rest))
      exact List.Pairwise.sublist hsub2 hpFull

theorem alGet_mem {κ α} [DecidableEq κ] (m : List (κ × α)) (k : κ) (v : α)
    (h : alGet m k = some v) : (k, v) ∈ m := by
  unfold alGet at h
  cases hf : m.find? (fun p => p.1 = k) with
  | none => rw [hf] at h; exact absurd h (by simp)
  | some q =>
    rw [hf] at h
    have hq : q ∈ m := List.mem_of_find?_eq_some hf
    have hk : q.1 = k := by simpa using List.find?_some hf
    have hv : q.2 = v := by simpa using h
    have hqe : (k, v) = q := by rw [← hk, ← hv]
    rwa [hqe]

theorem groupTxsBy_sound (key : RawTransaction → String)
    (txs : List RawTransaction) :
    ∀ p ∈ groupTxsBy key txs, ∀ tx ∈ p.2, tx ∈ txs ∧ key tx = p.1 := by
  have main : ∀ (l : List RawTransaction)
      (acc : List (String × List RawTransaction)),
      (∀ tx ∈ l, tx ∈ txs) →
      (∀ p ∈ acc, ∀ tx ∈ p.2, tx ∈ txs ∧ key tx = p.1) →
      ∀ p ∈ l.foldl
        (fun m tx => alSet m (key tx) (((alGet m (key tx)).getD []) ++ [tx]))
        acc,
        ∀ tx ∈ p.2, tx ∈ txs ∧ key tx = p.1 := by
    intro l
    induction l with
    | nil => intro acc _ hacc; exact hacc
    | cons u us ih =>
      intro acc hl hacc
      rw [List.foldl_cons]
      apply ih
      · intro tx htx
        exact hl tx (List.mem_cons_of_mem u htx)
      · intro p hp tx htx
        rcases mem_alSet _ _ _ _ hp with hpe | hpm
        · rw [hpe] at htx ⊢
          rcases List.mem_append.mp htx with hold | hsing
          · cases hget : alGet acc (key u) with
            | none => rw [hget, Option.getD_none] at hold; cases hold
            | some old =>
              rw [hget, Option.getD_some] at hold
              have := hacc (key u, old) (alGet_mem _ _ _ hget) tx hold
              simpa using this
          · have htu : tx = u := List.mem_singleton.mp hsing
            rw [htu]
            exact ⟨hl u (List.mem_cons_self u us), rfl⟩
        · exact hacc p hpm tx htx
  intro p hp
  exact main txs [] (fun tx h => h) (by intro p hp; cases hp) p hp

theorem detectFanIn_sound (transactions : List RawTransaction) :
    ∀ p ∈ detectFanIn transactions,
      ∃ l, (p.1, l) ∈ groupTxsBy (fun tx => tx.receiver_id) transactions ∧
        fanScan (fun tx => tx.sender_id) [] (sortBy timeLe l) = some p.2 := by
  have main : ∀ (gs : List (String × List RawTransaction))
      (acc : List (String × (List String × Nat × Nat))),
      (∀ g ∈ gs, g ∈ groupTxsBy (fun tx => tx.receiver_id) transactions) →
      (∀ p ∈ acc, ∃ l,
        (p.1, l) ∈ groupTxsBy (fun tx => tx.receiver_id) transactions ∧
        fanScan (fun tx => tx.sender_id) [] (sortBy timeLe l) = some p.2) →
      ∀ p ∈ gs.foldl (fanStep (fun tx => tx.sender_id)) acc,
        ∃ l, (p.1, l) ∈ groupTxsBy (fun tx => tx.receiver_id) transactions ∧
          fanScan (fun tx => tx.sender_id) [] (sortBy timeLe l) = some p.2 := by
    intro gs
    induction gs with
    | nil => intro acc _ hacc; exact hacc
    | cons g gs ih =>
      intro acc hgs hacc
      rw [List.foldl_cons]
      apply ih
      · intro q hq
        exact hgs q (List.mem_cons_of_mem g hq)
      · intro p hp
        simp only [fanStep] at hp
        cases hscan : fanScan (fun tx => tx.sender_id) [] (sortBy timeLe g.2) with
        | none =>
          rw [hscan] at hp
          exact hacc p hp
        | some res =>
          rw [hscan] at hp
          rcases mem_alSet _ _ _ _ hp with hpe | hpm
          · refine ⟨g.2, ?_, ?_⟩
            · rw [hpe]
              simpa using hgs g (List.mem_cons_self g gs)
            · rw [hpe]
              exact hscan
          · exact hacc p hpm
  intro p hp
  exact main _ [] (fun g h => h) (by intro p hp; cases hp) p hp

theorem sortBy_timeLe_pairwise (l : List RawTransaction) :
    (sortBy timeLe l).Pairwise (fun a b => a.timestamp ≤ b.timestamp) := by
  have h := pairwise_sortBy timeLe
    (fun a b => by
      unfold timeLe
      rcases le_total a.timestamp b.timestamp with h | h
      · exact Or.inl (decide_eq_true h)
      · exact Or.inr (decide_eq_true h))
    (fun a b c hab hbc => decide_eq_true
      (le_trans (of_decide_eq_true hab) (of_decide_eq_true hbc)))
    l
  exact h.imp (fun hab => of_decide_eq_true hab)

theorem cycleRingsOf_pattern (cycles : List (List String))
    (accounts : List AccountNode) (transactions : List RawTransaction) :
    ∀ r ∈ cycleRingsOf cycles accounts transactions,
      r.pattern_type = "cycle" := by
  intro r hr
  rcases List.mem_map.mp hr with ⟨q, _, rfl⟩
  rfl

theorem fanInRingsOf_members (offset : Nat)
    (fanInMap : List (String × (List String × Nat × Nat)))
    (accounts : List AccountNode) :
    ∀ r ∈ fanInRingsOf offset fanInMap accounts,
      r.pattern_type = "fan_in" ∧ ∃ p ∈ fanInMap, r.members = p.1 :: p.2.1 := by
  intro r hr
  rcases List.mem_map.mp hr with ⟨q, hq, rfl⟩
  refine ⟨rfl, q.2, ?_, rfl⟩
  exact List.getElem?_mem (List.mem_enum_iff_getElem?.mp hq)

theorem fanOutRingsOf_pattern (offset : Nat)
    (fanOutMap : List (String × (List String × Nat × Nat)))
    (accounts : List AccountNode) :
    ∀ r ∈ fanOutRingsOf offset fanOutMap accounts,
      r.pattern_type = "fan_out" := by
  intro r hr
  rcases List.mem_map.mp hr with ⟨q, _, rfl⟩
  rfl

theorem shellRingStep_rings (accounts : List AccountNode)
    (uniqueChains : List (List String)) :
    ∀ (comps : List (List String)) (st : List FraudRing × Nat),
      (∀ r ∈ st.1, r.pattern_type = "shell_chain") →
      ∀ r ∈ (comps.foldl (shellRingStep accounts uniqueChains) st).1,
        r.pattern_type = "shell_chain" := by
  intro comps
  induction comps with
  | nil => intro st hst; exact hst
  | cons c cs ih =>
    intro st hst
    rw [List.foldl_cons]
    apply ih
    intro r hr
    simp only [shellRingStep] at hr
    cases hbc : bestChainFor uniqueChains c with
    | none =>
      rw [hbc] at hr
      exact hst r hr
    | some best =>
      rw [hbc] at hr
      rcases List.mem_append.mp hr with h | h
      · exact hst r h
      · rw [List.mem_singleton.mp h]

theorem shellRingsOf_pattern (offset : Nat) (shellChains : List (List String))
    (accounts : List AccountNode) :
    ∀ r ∈ shellRingsOf offset shellChains accounts,
      r.pattern_type = "shell_chain" := by
  intro r hr
  simp only [shellRingsOf] at hr
  exact shellRingStep_rings accounts (dedupChains shellChains) _ ([], offset)
    (by intro r h; cases h) r hr

theorem commStep_rings (g : AdjList) (accounts : List AccountNode)
    (suspAdj : List (String × List String))
    (cycleNodes fanInNodes fanOutNodes shellNodeSet : List String)
    (accountToPatternRings : List (String × List RingId)) :
    ∀ (comps : List (List String)) (st : CommunityResult × Nat),
      (∀ r ∈ st.1.rings, r.pattern_type = "community") →
      ∀ r ∈ (comps.foldl
        (commStep g accounts suspAdj cycleNodes fanInNodes fanOutNodes
          shellNodeSet accountToPatternRings) st).1.rings,
        r.pattern_type = "community" := by
  intro comps
  induction comps with
  | nil => intro st hst; exact hst
  | cons c cs ih =>
    intro st hst
    rw [List.foldl_cons]
    apply ih
    intro r hr
    simp only [commStep] at hr
    split at hr
    · exact hst r hr
    · rcases List.mem_append.mp hr with h | h
      · exact hst r h
      · rw [List.mem_singleton.mp h]

theorem detectMuleCommunities_pattern (g : AdjList)
    (accounts : List AccountNode) (cycles : List (List String))
    (fanInMap fanOutMap : List (String × (List String × Nat × Nat)))
    (shellChains : List (List String)) (patternRings : List FraudRing) :
    ∀ r ∈ (detectMuleCommunities g accounts cycles fanInMap fanOutMap
      shellChains patternRings).rings, r.pattern_type = "community" := by
  intro r hr
  simp only [detectMuleCommunities] at hr
  exact commStep_rings g accounts _ _ _ _ _ _ _ _ (by intro r h; cases h) r hr

theorem vtc_rings_subset (accounts : List AccountNode)
    (fraudRings : List FraudRing) (transactions : List RawTransaction) :
    ∀ r ∈ (validateTemporalCycles accounts fraudRings transactions).2,
      r ∈ fraudRings := by
  intro r hr
  exact (List.mem_filter.mp hr).1

theorem pRings0_fan_in (transactions : List RawTransaction)
    (mode : DetectionMode) (r : FraudRing)
    (hr : r ∈ pRings0 transactions mode) (hp : r.pattern_type = "fan_in") :
    ∃ p ∈ pFanIn transactions mode, r.members = p.1 :: p.2.1 := by
  simp only [pRings0, buildFraudRings] at hr
  rw [mem_sortBy] at hr
  rcases List.mem_append.mp hr with hr' | hsh
  · rcases List.mem_append.mp hr' with hr'' | hfo
    · rcases List.mem_append.mp hr'' with hc | hfi
      · exact absurd (hp.symm.trans (cycleRingsOf_pattern _ _ _ r hc))
          (by decide)
      · exact (fanInRingsOf_members _ _ _ r hfi).2
    · exact absurd (hp.symm.trans (fanOutRingsOf_pattern _ _ _ r hfo))
        (by decide)
  · exact absurd (hp.symm.trans (shellRingsOf_pattern _ _ _ r hsh)) (by decide)

/-- C7: every `fan_in` ring in the analyzer output names a receiver (its
head member) for which some time window of at most 72 hours (boundary
inclusive) contains transactions from at least 10 distinct senders. -/
theorem fan_in_window_property (transactions : List RawTransaction)
    (mode : DetectionMode) (elapsedMs : Q) (r : FraudRing)
    (hr : r ∈ (analyzeTransactions transactions mode elapsedMs).fraudRings)
    (hp : r.pattern_type = "fan_in") :
    ∃ rcv, r.members.head? = some rcv ∧ FanInEvidence rcv transactions := by
  rw [analyzeTransactions_fraudRings] at hr
  simp only [pRingsFinal] at hr
  rw [mem_sortBy] at hr
  rcases List.mem_append.mp hr with hvtc | hcomm
  · have hr0 : r ∈ pRings0 transactions mode :=
      vtc_rings_subset _ _ _ r hvtc
    obtain ⟨p, hpmem, hmem⟩ := pRings0_fan_in transactions mode r hr0 hp
    obtain ⟨rcv, ids, lo, hi⟩ := p
    refine ⟨rcv, by rw [hmem]; rfl, ?_⟩
    simp only [pFanIn] at hpmem
    split at hpmem
    · obtain ⟨l, hgrp, hscan⟩ := detectFanIn_sound transactions _ hpmem
      have hforall := groupTxsBy_sound (fun tx => tx.receiver_id)
        transactions _ hgrp
      have hws : ∀ x ∈ sortBy timeLe l,
          x ∈ transactions ∧ x.receiver_id = rcv :=
        fun x hx => hforall x ((mem_sortBy timeLe l x).mp hx)
      obtain ⟨win, hbounds, hspan, hids, hlen⟩ :=
        fanScan_spec (fun tx => tx.sender_id)
          (fun x => x ∈ transactions ∧ x.receiver_id = rcv)
          (sortBy timeLe l) [] ids lo hi
          (by intro x hx; cases hx) hws
          (sortBy_timeLe_pairwise l) hscan
      refine ⟨win, lo, hi, ?_, hspan, ?_⟩
      · intro tx htx
        obtain ⟨hP, hlo, hhi⟩ := hbounds tx htx
        exact ⟨hP.1, hP.2, hlo, hhi⟩
      · rw [← hids]
        exact hlen
    · cases hpmem
  · have := detectMuleCommunities_pattern _ _ _ _ _ _ _ r hcomm
    exact absurd (hp.symm.trans this) (by decide)

/-- C7 witness: the fan-in ring of the `c3Txs` run (receiver `R`, ten
distinct senders within seconds of each other). -/
theorem fan_in_window_property_witness :
    ∃ rcv, ((analyzeTransactions c3Txs DetectionMode.all 0).fraudRings.getD 2
      c4Ring).members.head? = some rcv ∧ FanInEvidence rcv c3Txs :=
  fan_in_window_property c3Txs DetectionMode.all 0 _ (by decide) (by decide)

theorem alModify_keys {κ α} [DecidableEq κ] (l : List (κ × α)) (k : κ)
    (f : α → α) :
    (alModify l k f).map (fun p => p.1) = l.map (fun p => p.1) := by
  unfold alModify
  rw [List.map_map]
  apply List.map_congr_left
  intro p _
  by_cases h : p.1 = k <;> simp [h]

theorem alHas_key_mem {κ α} [DecidableEq κ] (l : List (κ × α)) (k : κ) :
    alHas l k = true ↔ k ∈ l.map (fun p => p.1) := by
  unfold alHas
  rw [List.any_eq_true]
  constructor
  · rintro ⟨p, hp, hk⟩
    exact List.mem_map.mpr ⟨p, hp, by simpa using hk⟩
  · intro h
    rcases List.mem_map.mp h with ⟨p, hp, hk⟩
    exact ⟨p, hp, by simpa using hk⟩

theorem alEnsure_keys_nodup {κ α} [DecidableEq κ] (l : List (κ × α)) (k : κ)
    (d : α) (h : (l.map (fun p => p.1)).Nodup) :
    ((alEnsure l k d).map (fun p => p.1)).Nodup := by
  unfold alEnsure
  split
  · exact h
  · next hne =>
    have hk : k ∉ l.map (fun p => p.1) :=
      fun hmem => hne ((alHas_key_mem l k).mpr hmem)
    rw [List.map_append]
    exact List.Nodup.append h (List.nodup_singleton k)
      (List.disjoint_singleton.mpr hk)

theorem buildAdjacencyList_keys_nodup (transactions : List RawTransaction) :
    (adjNodes (buildAdjacencyList transactions)).Nodup := by
  unfold adjNodes buildAdjacencyList
  have main : ∀ (l : List RawTransaction) (g : AdjList),
      ((g.map (fun p => p.1)).Nodup) →
      (((l.foldl
        (fun g tx =>
          let g := alEnsure g tx.sender_id []
          let g := alEnsure g tx.receiver_id []
          alModify g tx.sender_id (fun nbrs =>
            let nbrs := alEnsure nbrs tx.receiver_id []
            alModify nbrs tx.receiver_id (fun l => l ++ [tx])))
        g).map (fun p => p.1)).Nodup) := by
    intro l
    induction l with
    | nil => intro g hg; exact hg
    | cons tx txs ih =>
      intro g hg
      rw [List.foldl_cons]
      apply ih
      show (((alModify (alEnsure (alEnsure g tx.sender_id []) tx.receiver_id [])
        tx.sender_id _).map (fun p => p.1))).Nodup
      rw [alModify_keys]
      exact alEnsure_keys_nodup _ _ _ (alEnsure_keys_nodup _ _ _ hg)
  exact main transactions [] (by simp)

theorem applyTxTotals_ids (accounts : List AccountNode)
    (transactions : List RawTransaction) :
    idsOf (applyTxTotals accounts transactions) = idsOf accounts := by
  unfold applyTxTotals
  refine foldl_idsOf _ ?_ transactions accounts
  intro l tx
  show idsOf (updAcc tx.receiver_id _ (updAcc tx.sender_id _ l)) = idsOf l
  rw [idsOf_updAcc, idsOf_updAcc]
  · intro a; rfl
  · intro a; rfl

theorem applyDegrees_ids (accounts : List AccountNode) (g : AdjList) :
    idsOf (applyDegrees accounts g) = idsOf accounts := by
  have h1 : ∀ (l : List AccountNode)
      (p : String × List (String × List RawTransaction)),
      idsOf (updAcc p.1 (fun a => { a with out_degree := p.2.length }) l) =
      idsOf l :=
    fun l p => idsOf_updAcc l (fun a => rfl)
  have h2 : ∀ (l : List AccountNode)
      (p : String × List (String × List RawTransaction)),
      idsOf (p.2.foldl (fun acc q =>
        updAcc q.1 (fun a => { a with in_degree := a.in_degree + 1 }) acc) l) =
      idsOf l := by
    intro l p
    refine foldl_idsOf _ ?_ p.2 l
    intro l' q
    exact idsOf_updAcc l' (fun a => rfl)
  unfold applyDegrees
  exact Eq.trans (foldl_idsOf _ h2 g _) (foldl_idsOf _ h1 g _)

theorem pAccounts0_ids (transactions : List RawTransaction) :
    idsOf (pAccounts0 transactions) = adjNodes (pGraph transactions) := by
  unfold pAccounts0 buildAccounts
  rw [applyDegrees_ids, applyTxTotals_ids]
  unfold idsOf
  rw [List.map_map]
  exact List.map_id _

theorem pAccounts0_ids_nodup (transactions : List RawTransaction) :
    (idsOf (pAccounts0 transactions)).Nodup := by
  rw [pAccounts0_ids]
  exact buildAdjacencyList_keys_nodup transactions

theorem mem_low_total (accounts : List AccountNode)
    (hnd : (idsOf accounts).Nodup) (a : AccountNode) (ha : a ∈ accounts)
    (hin : a.account_id ∈ lowActivityIds accounts) :
    a.total_transactions ≤ 3 := by
  unfold lowActivityIds at hin
  rcases List.mem_map.mp hin with ⟨b, hb, hid⟩
  have hbl := List.mem_filter.mp hb
  have hba : b = a :=
    List.inj_on_of_nodup_map hnd hbl.1 ha hid
  rw [← hba]
  simpa using hbl.2

theorem shellRecord_chains (low : List String) (newPath : List String)
    (st : ShellSearchState)
    (hst : ∀ c ∈ st.chains, 4 ≤ c.length ∧ ∀ n ∈ (c.drop 1).dropLast, n ∈ low) :
    ∀ c ∈ (shellRecord low newPath st).chains,
      4 ≤ c.length ∧ ∀ n ∈ (c.drop 1).dropLast, n ∈ low := by
  unfold shellRecord
  split_ifs with h4 hall
  · intro c hc
    rcases List.mem_append.mp hc with hc | hc
    · exact hst c hc
    · rw [List.mem_singleton.mp hc]
      refine ⟨h4, ?_⟩
      intro n hn
      have := List.all_eq_true.mp hall.1 n hn
      exact (contains_iff_mem low n).mp (by simpa using this)
  · exact hst
  · exact hst

theorem shellStep_chains (low : List String) (path : List String)
    (st : ShellSearchState) (neighbor : String)
    (hst : ∀ c ∈ st.chains, 4 ≤ c.length ∧ ∀ n ∈ (c.drop 1).dropLast, n ∈ low) :
    ∀ c ∈ (shellStep low path st neighbor).chains,
      4 ≤ c.length ∧ ∀ n ∈ (c.drop 1).dropLast, n ∈ low := by
  unfold shellStep shellEnqueue
  split_ifs with h1 h2
  · exact hst
  · exact shellRecord_chains low (path ++ [neighbor]) _ hst
  · exact shellRecord_chains low (path ++ [neighbor]) _ hst

theorem shellExpand_chains (low : List String) (path : List String)
    (neighbors : List String) :
    ∀ (st : ShellSearchState),
      (∀ c ∈ st.chains, 4 ≤ c.length ∧ ∀ n ∈ (c.drop 1).dropLast, n ∈ low) →
      ∀ c ∈ (shellExpand low path neighbors st).chains,
        4 ≤ c.length ∧ ∀ n ∈ (c.drop 1).dropLast, n ∈ low := by
  unfold shellExpand
  induction neighbors with
  | nil => intro st hst; exact hst
  | cons nb nbs ih =>
    intro st hst
    rw [List.foldl_cons]
    exact ih _ (shellStep_chains low path st nb hst)

theorem shellSearchLoop_chains (g : AdjList) (low : List String) :
    ∀ (fuel : Nat) (st : ShellSearchState),
      (∀ c ∈ st.chains, 4 ≤ c.length ∧ ∀ n ∈ (c.drop 1).dropLast, n ∈ low) →
      ∀ c ∈ (shellSearchLoop g low fuel st).chains,
        4 ≤ c.length ∧ ∀ n ∈ (c.drop 1).dropLast, n ∈ low := by
  intro fuel
  induction fuel with
  | zero => intro st hst; exact hst
  | succ fuel ih =>
    intro st hst
    rw [shellSearchLoop]
    cases hq : st.queue with
    | nil => exact hst
    | cons front rest =>
      obtain ⟨node, path⟩ := front
      show ∀ c ∈ (if 6 < path.length then
          shellSearchLoop g low fuel
            { queue := rest, visited := st.visited, chains := st.chains,
              shellNodes := st.shellNodes }
        else
          match alGet g node with
          | none =>
            shellSearchLoop g low fuel
              { queue := rest, visited := st.visited, chains := st.chains,
                shellNodes := st.shellNodes }
          | some neighbors =>
            shellSearchLoop g low fuel
              (shellExpand low path (neighbors.map (fun p => p.1))
                { queue := rest, visited := st.visited, chains := st.chains,
                  shellNodes := st.shellNodes })).chains,
        4 ≤ c.length ∧ ∀ n ∈ (c.drop 1).dropLast, n ∈ low
      split_ifs with hlen
      · exact ih _ hst
      · cases halg : alGet g node with
        | none => exact ih _ hst
        | some neighbors =>
          exact ih _ (shellExpand_chains low path _ _ hst)

theorem detectShellChains_chains (g : AdjList) (accounts : List AccountNode) :
    ∀ c ∈ (detectShellChains g accounts).1,
      4 ≤ c.length ∧
      ∀ n ∈ (c.drop 1).dropLast, n ∈ lowActivityIds accounts := by
  unfold detectShellChains
  have main : ∀ (l : List AccountNode) (st : ShellSearchState),
      (∀ c ∈ st.chains, 4 ≤ c.length ∧
        ∀ n ∈ (c.drop 1).dropLast, n ∈ lowActivityIds accounts) →
      ∀ c ∈ (l.foldl
        (fun st a =>
          shellSearchLoop g (lowActivityIds accounts) (g.length + 2)
            { st with queue := [(a.account_id, [a.account_id])]
                      visited := [a.account_id] })
        st).chains,
        4 ≤ c.length ∧ ∀ n ∈ (c.drop 1).dropLast, n ∈ lowActivityIds accounts := by
    intro l
    induction l with
    | nil => intro st hst; exact hst
    | cons a as ih =>
      intro st hst
      rw [List.foldl_cons]
      exact ih _ (shellSearchLoop_chains g (lowActivityIds accounts) _ _ hst)
  exact main accounts _ (by intro c hc; cases hc)

theorem dedupChains_subset (chains : List (List String)) :
    ∀ c ∈ dedupChains chains, c ∈ chains := by
  unfold dedupChains
  have main : ∀ (l : List (List String))
      (st : List (List String) × List (List String)),
      (∀ c ∈ l, c ∈ chains) → (∀ c ∈ st.1, c ∈ chains) →
      ∀ c ∈ (l.foldl
        (fun st c =>
          if st.2.contains (chainSig c) then st
          else (st.1 ++ [c], st.2 ++ [chainSig c]))
        st).1, c ∈ chains := by
    intro l
    induction l with
    | nil => intro st _ hst; exact hst
    | cons d ds ih =>
      intro st hl hst
      rw [List.foldl_cons]
      refine ih _ (fun c hc => hl c (List.mem_cons_of_mem d hc)) ?_
      split_ifs with hdup
      · exact hst
      · intro c hc
        rcases List.mem_append.mp hc with hc | hc
        · exact hst c hc
        · rw [List.mem_singleton.mp hc]
          exact hl d (List.mem_cons_self d ds)
  exact main chains ([], []) (fun c hc => hc) (by intro c hc; cases hc)

theorem bestFold_mem :
    ∀ (rest : List (List String)) (c0 : List String)
      (S : List (List String)), c0 ∈ S → (∀ c ∈ rest, c ∈ S) →
      rest.foldl
        (fun best c =>
          if (sOfList best).length < (sOfList c).length then c else best)
        c0 ∈ S := by
  intro rest
  induction rest with
  | nil => intro c0 S h0 _; exact h0
  | cons c cs ih =>
    intro c0 S h0 hl
    rw [List.foldl_cons]
    split_ifs with hlt
    · exact ih _ S (hl c (List.mem_cons_self c cs))
        (fun d hd => hl d (List.mem_cons_of_mem c hd))
    · exact ih _ S h0 (fun d hd => hl d (List.mem_cons_of_mem c hd))

theorem bestChainFor_mem (uniqueChains : List (List String))
    (comp : List String) (best : List String)
    (h : bestChainFor uniqueChains comp = some best) : best ∈ uniqueChains := by
  unfold bestChainFor at h
  cases hf : uniqueChains.filter (fun c => c.any (fun n => comp.contains n)) with
  | nil => rw [hf] at h; cases h
  | cons c0 rest =>
    rw [hf] at h
    have hb : best ∈ uniqueChains.filter
        (fun c => c.any (fun n => comp.contains n)) := by
      rw [hf]
      have h0 : c0 ∈ c0 :: rest := List.mem_cons_self c0 rest
      have hr : ∀ c ∈ rest, c ∈ c0 :: rest :=
        fun c hc => List.mem_cons_of_mem c0 hc
      have := bestFold_mem rest c0 (c0 :: rest) h0 hr
      rw [Option.some.injEq] at h
      rw [← h]
      exact this
    exact (List.mem_filter.mp hb).1

theorem shellRingStep_members (accounts : List AccountNode)
    (uniqueChains : List (List String)) :
    ∀ (comps : List (List String)) (st : List FraudRing × Nat),
      (∀ r ∈ st.1, r.members ∈ uniqueChains) →
      ∀ r ∈ (comps.foldl (shellRingStep accounts uniqueChains) st).1,
        r.members ∈ uniqueChains := by
  intro comps
  induction comps with
  | nil => intro st hst; exact hst
  | cons c cs ih =>
    intro st hst
    rw [List.foldl_cons]
    apply ih
    intro r hr
    simp only [shellRingStep] at hr
    cases hbc : bestChainFor uniqueChains c with
    | none =>
      rw [hbc] at hr
      exact hst r hr
    | some best =>
      rw [hbc] at hr
      rcases List.mem_append.mp hr with h | h
      · exact hst r h
      · rw [List.mem_singleton.mp h]
        exact bestChainFor_mem uniqueChains c best hbc

theorem shellRingsOf_members (offset : Nat) (shellChains : List (List String))
    (accounts : List AccountNode) :
    ∀ r ∈ shellRingsOf offset shellChains accounts,
      r.members ∈ shellChains := by
  intro r hr
  simp only [shellRingsOf] at hr
  have := shellRingStep_members accounts (dedupChains shellChains) _
    ([], offset) (by intro r h; cases h) r hr
  exact dedupChains_subset shellChains _ this

theorem calculateSuspicionScores_idtot (Q : String → Nat → Prop)
    (accounts : List AccountNode) (ringMap : List (String × List RingId))
    (fanInMap fanOutMap : List (String × (List String × Nat × Nat)))
    (shellNodes : List String) (transactions : List RawTransaction)
    (h : ∀ a ∈ accounts, Q a.account_id a.total_transactions) :
    ∀ a ∈ calculateSuspicionScores accounts ringMap fanInMap fanOutMap
      shellNodes transactions, Q a.account_id a.total_transactions := by
  refine map_pres ?_ h
  intro a ha
  exact ha

theorem applyRingMembership_idtot (Q : String → Nat → Prop)
    (accounts : List AccountNode) (rings : List FraudRing)
    (h : ∀ a ∈ accounts, Q a.account_id a.total_transactions) :
    ∀ a ∈ applyRingMembership accounts rings,
      Q a.account_id a.total_transactions := by
  refine foldl_pres _ ?_ rings accounts h
  intro l r hl
  refine foldl_pres _ ?_ r.members l hl
  intro l' m hl'
  refine updAcc_pres ?_ hl'
  intro a ha
  dsimp only
  split <;> exact ha

theorem relationship_idtot (Q : String → Nat → Prop)
    (accounts : List AccountNode) (transactions : List RawTransaction)
    (cycleMembers : List String)
    (h : ∀ a ∈ accounts, Q a.account_id a.total_transactions) :
    ∀ a ∈ adjustScoresUsingRelationshipIntelligence accounts transactions
      cycleMembers, Q a.account_id a.total_transactions := by
  refine map_pres ?_ h
  intro a ha
  split_ifs <;> exact ha

theorem vtc_idtot (Q : String → Nat → Prop) (accounts : List AccountNode)
    (fraudRings : List FraudRing) (transactions : List RawTransaction)
    (h : ∀ a ∈ accounts, Q a.account_id a.total_transactions) :
    ∀ a ∈ (validateTemporalCycles accounts fraudRings transactions).1,
      Q a.account_id a.total_transactions := by
  unfold validateTemporalCycles
  refine foldl_pres _ ?_ _ accounts h
  intro l r hl
  split_ifs with hv
  · exact hl
  · unfold vtcProcessRing
    refine foldl_pres _ ?_ r.members l hl
    intro l' m hl'
    refine updAcc_pres ?_ hl'
    intro a ha
    unfold vtcMemberStep
    split_ifs <;> exact ha

theorem leadership_idtot (Q : String → Nat → Prop)
    (accounts : List AccountNode) (fraudRings : List FraudRing)
    (transactions : List RawTransaction)
    (h : ∀ a ∈ accounts, Q a.account_id a.total_transactions) :
    ∀ a ∈ analyzeRingLeadership accounts fraudRings transactions,
      Q a.account_id a.total_transactions := by
  unfold analyzeRingLeadership
  split_ifs with hr
  · exact h
  · refine foldl_pres _ ?_ fraudRings accounts h
    intro l ring hl
    unfold leadershipRingStep
    split_ifs with hm
    · exact hl
    · refine foldl_pres _ ?_ _ l hl
      intro l' p hl'
      refine updAcc_pres ?_ hl'
      intro a ha
      unfold leadershipAccountUpd leadershipCentralityUpd
      split_ifs <;> exact ha

theorem multiStage_idtot (Q : String → Nat → Prop)
    (accounts : List AccountNode) (fraudRings : List FraudRing)
    (transactions : List RawTransaction)
    (h : ∀ a ∈ accounts, Q a.account_id a.total_transactions) :
    ∀ a ∈ detectMultiStageFlows accounts fraudRings transactions,
      Q a.account_id a.total_transactions := by
  unfold detectMultiStageFlows
  split_ifs with hr
  · exact h
  · refine foldl_pres _ ?_ _ accounts h
    intro l p hl
    split_ifs with hn
    · exact hl
    · refine updAcc_pres ?_ hl
      intro a ha
      exact ha

theorem applyCommunityUpdates_idtot (Q : String → Nat → Prop)
    (accounts : List AccountNode)
    (membershipMap : List (String × List RingId))
    (mergedRingMap : List (RingId × List RingId))
    (h : ∀ a ∈ accounts, Q a.account_id a.total_transactions) :
    ∀ a ∈ applyCommunityUpdates accounts membershipMap mergedRingMap,
      Q a.account_id a.total_transactions := by
  unfold applyCommunityUpdates
  refine foldl_pres _ ?_ _ accounts h
  intro l p hl
  refine updAcc_pres ?_ hl
  intro a ha
  exact ha

theorem fanInPromotion_idtot (Q : String → Nat → Prop)
    (accounts : List AccountNode) (transactions : List RawTransaction)
    (cycles : List (List String)) (shellChains : List (List String))
    (fanOutMap : List (String × (List String × Nat × Nat)))
    (h : ∀ a ∈ accounts, Q a.account_id a.total_transactions) :
    ∀ a ∈ validateFanInTwoPhase accounts transactions cycles shellChains
      fanOutMap, Q a.account_id a.total_transactions := by
  refine map_pres ?_ h
  intro a ha
  split_ifs <;> exact ha

theorem pAccountsFinal_idtot (transactions : List RawTransaction)
    (mode : DetectionMode) (Q : String → Nat → Prop)
    (h0 : ∀ a ∈ pAccounts0 transactions, Q a.account_id a.total_transactions) :
    ∀ a ∈ pAccountsFinal transactions mode,
      Q a.account_id a.total_transactions := by
  intro a ha
  rw [pAccountsFinal, mem_sortBy] at ha
  revert a ha
  refine fanInPromotion_idtot Q _ _ _ _ _ ?_
  refine applyCommunityUpdates_idtot Q _ _ _ ?_
  rw [pAccounts6]
  refine multiStage_idtot Q _ _ _ ?_
  refine leadership_idtot Q _ _ _ ?_
  rw [pVtc]
  refine vtc_idtot Q _ _ _ ?_
  rw [pAccounts3]
  refine relationship_idtot Q _ _ _ ?_
  refine applyRingMembership_idtot Q _ _ ?_
  rw [pScored]
  exact calculateSuspicionScores_idtot Q _ _ _ _ _ _ h0

theorem pRings0_shell (transactions : List RawTransaction)
    (mode : DetectionMode) (r : FraudRing)
    (hr : r ∈ pRings0 transactions mode)
    (hp : r.pattern_type = "shell_chain") :
    r.members ∈ (pShellRes transactions mode).1 := by
  simp only [pRings0, buildFraudRings] at hr
  rw [mem_sortBy] at hr
  rcases List.mem_append.mp hr with hr' | hsh
  · rcases List.mem_append.mp hr' with hr'' | hfo
    · rcases List.mem_append.mp hr'' with hc | hfi
      · exact absurd (hp.symm.trans (cycleRingsOf_pattern _ _ _ r hc))
          (by decide)
      · exact absurd (hp.symm.trans (fanInRingsOf_members _ _ _ r hfi).1)
          (by decide)
    · exact absurd (hp.symm.trans (fanOutRingsOf_pattern _ _ _ r hfo))
        (by decide)
  · exact shellRingsOf_members _ _ _ r hsh

/-- C8: every `shell_chain` ring in the analyzer output has at least four
members (three hops), and every output account whose id is one of the
ring's intermediate members (neither endpoint) has
`total_transactions ≤ 3`. -/
theorem shell_chain_property (transactions : List RawTransaction)
    (mode : DetectionMode) (elapsedMs : Q) (r : FraudRing)
    (hr : r ∈ (analyzeTransactions transactions mode elapsedMs).fraudRings)
    (hp : r.pattern_type = "shell_chain") :
    4 ≤ r.members.length ∧
    ∀ n ∈ (r.members.drop 1).dropLast,
      ∀ a ∈ (analyzeTransactions transactions mode elapsedMs).accounts,
        a.account_id = n → a.total_transactions ≤ 3 := by
  rw [analyzeTransactions_fraudRings] at hr
  simp only [pRingsFinal] at hr
  rw [mem_sortBy] at hr
  rcases List.mem_append.mp hr with hvtc | hcomm
  · have hr0 : r ∈ pRings0 transactions mode := vtc_rings_subset _ _ _ r hvtc
    have hmem := pRings0_shell transactions mode r hr0 hp
    simp only [pShellRes] at hmem
    split at hmem
    · have hchain := detectShellChains_chains _ _ _ hmem
      refine ⟨hchain.1, ?_⟩
      intro n hn a ha hid
      rw [analyzeTransactions_accounts] at ha
      have h0 : ∀ b ∈ pAccounts0 transactions,
          b.account_id ∈ lowActivityIds (pAccounts0 transactions) →
          b.total_transactions ≤ 3 :=
        fun b hb hbin =>
          mem_low_total _ (pAccounts0_ids_nodup transactions) b hb hbin
      have hq := pAccountsFinal_idtot transactions mode
        (fun i t => i ∈ lowActivityIds (pAccounts0 transactions) → t ≤ 3)
        h0 a ha
      exact hq (by rw [hid]; exact hchain.2 n hn)
    · simp at hmem
  · exact absurd
      (hp.symm.trans (detectMuleCommunities_pattern _ _ _ _ _ _ _ r hcomm))
      (by decide)

/-- C8 witness: the shell ring `X → S1 → S2 → S3 → Y` of the `c3Txs` run. -/
theorem shell_chain_property_witness :
    4 ≤ ((analyzeTransactions c3Txs DetectionMode.all 0).fraudRings.getD 1
      c4Ring).members.length ∧
    ∀ n ∈ ((((analyzeTransactions c3Txs DetectionMode.all 0).fraudRings.getD 1
      c4Ring).members.drop 1).dropLast),
      ∀ a ∈ (analyzeTransactions c3Txs DetectionMode.all 0).accounts,
        a.account_id = n → a.total_transactions ≤ 3 :=
  shell_chain_property c3Txs DetectionMode.all 0 _ (by decide) (by decide)

theorem commFold_members (g : AdjList) (accounts : List AccountNode)
    (suspAdj : List (String × List String))
    (cns fis fos sns : List String)
    (a2p : List (String × List RingId)) (Φ : List String → Prop)
    (hΦ : ∀ comp, 2 ≤ comp.length →
      2 ≤ (componentEvidences comp suspAdj cns fis fos sns
        (internalEdgeCount g comp)).length → Φ comp) :
    ∀ (comps : List (List String)) (st : CommunityResult × Nat),
      (∀ comp ∈ comps, 2 ≤ comp.length) →
      (∀ r ∈ st.1.rings, Φ r.members) →
      ∀ r ∈ (comps.foldl
        (commStep g accounts suspAdj cns fis fos sns a2p) st).1.rings,
        Φ r.members := by
  intro comps
  induction comps with
  | nil => intro st _ hst; exact hst
  | cons c cs ih =>
    intro st hcomps hst
    rw [List.foldl_cons]
    refine ih _ (fun comp hc => hcomps comp (List.mem_cons_of_mem c hc)) ?_
    intro r hr
    simp only [commStep] at hr
    by_cases hcond : (componentEvidences c suspAdj cns fis fos sns
        (internalEdgeCount g c)).length < 2
    · rw [if_pos hcond] at hr
      exact hst r hr
    · rw [if_neg hcond] at hr
      rcases List.mem_append.mp hr with h | h
      · exact hst r h
      · rw [List.mem_singleton.mp h]
        exact hΦ c (hcomps c (List.mem_cons_self c cs)) (Nat.not_lt.mp hcond)

theorem detectMuleCommunities_evidence (g : AdjList)
    (accounts : List AccountNode) (cycles : List (List String))
    (fanInMap fanOutMap : List (String × (List String × Nat × Nat)))
    (shellChains : List (List String)) (patternRings : List FraudRing) :
    ∀ r ∈ (detectMuleCommunities g accounts cycles fanInMap fanOutMap
      shellChains patternRings).rings,
      2 ≤ r.members.length ∧
      2 ≤ (componentEvidences r.members
        (suspiciousAdj g ((accounts.filter
          (fun a => 0 < a.suspicion_score)).map (fun a => a.account_id)))
        (nodeUnion cycles) (fanInMap.map (fun p => p.1))
        (fanOutMap.map (fun p => p.1)) (nodeUnion shellChains)
        (internalEdgeCount g r.members)).length := by
  intro r hr
  simp only [detectMuleCommunities] at hr
  refine commFold_members g accounts _ _ _ _ _ _
    (fun ms => 2 ≤ ms.length ∧ 2 ≤ (componentEvidences ms
      (suspiciousAdj g ((accounts.filter
        (fun a => 0 < a.suspicion_score)).map (fun a => a.account_id)))
      (nodeUnion cycles) (fanInMap.map (fun p => p.1))
      (fanOutMap.map (fun p => p.1)) (nodeUnion shellChains)
      (internalEdgeCount g ms)).length)
    (fun comp hlen hev => ⟨hlen, hev⟩) _ _ ?_ (by intro q hq; cases hq) r hr
  intro comp hcomp
  have := (List.mem_filter.mp hcomp).2
  simpa using this

/-- C9: every `community` ring in the analyzer output has at least two
members, and its component exhibits at least two distinct evidence
categories (cycle member, fan-in node, fan-out node, shell-chain node,
bridge node, density); components with fewer than two categories are
skipped by the very same check. -/
theorem community_ring_property (transactions : List RawTransaction)
    (mode : DetectionMode) (elapsedMs : Q) (r : FraudRing)
    (hr : r ∈ (analyzeTransactions transactions mode elapsedMs).fraudRings)
    (hp : r.pattern_type = "community") :
    2 ≤ r.members.length ∧
    2 ≤ (pCommEvidences transactions mode r.members).length := by
  rw [analyzeTransactions_fraudRings] at hr
  simp only [pRingsFinal] at hr
  rw [mem_sortBy] at hr
  rcases List.mem_append.mp hr with hvtc | hcomm
  · have hr0 : r ∈ pRings0 transactions mode := vtc_rings_subset _ _ _ r hvtc
    simp only [pRings0, buildFraudRings] at hr0
    rw [mem_sortBy] at hr0
    rcases List.mem_append.mp hr0 with h' | hsh
    · rcases List.mem_append.mp h' with h'' | hfo
      · rcases List.mem_append.mp h'' with hc | hfi
        · exact absurd (hp.symm.trans (cycleRingsOf_pattern _ _ _ r hc))
            (by decide)
        · exact absurd (hp.symm.trans (fanInRingsOf_members _ _ _ r hfi).1)
            (by decide)
      · exact absurd (hp.symm.trans (fanOutRingsOf_pattern _ _ _ r hfo))
          (by decide)
    · exact absurd (hp.symm.trans (shellRingsOf_pattern _ _ _ r hsh))
        (by decide)
  · exact detectMuleCommunities_evidence _ _ _ _ _ _ _ r hcomm

/-- C9 witness: the community ring of the `c3Txs` run. -/
theorem community_ring_property_witness :
    2 ≤ ((analyzeTransactions c3Txs DetectionMode.all 0).fraudRings.getD 0
      c4Ring).members.length ∧
    2 ≤ (pCommEvidences c3Txs DetectionMode.all
      (((analyzeTransactions c3Txs DetectionMode.all 0).fraudRings.getD 0
        c4Ring).members)).length :=
  community_ring_property c3Txs DetectionMode.all 0 _ (by decide) (by decide)
